import Mathlib

/-!
Verification of the Informed RRT* planner
(`src/PathPlanning/InformedRRTStar/informed_rrt_star.py`).

Shallow embedding conventions:
* Python floats are modelled as real numbers (`ℝ`); `float('inf')` values
  (`cBest`, `pathLen`, the entries of `dList` in `choose_parent`) live in
  `WithTop ℝ`.
* `math.sqrt` is modelled by `Real.sqrt` (total; it agrees with the Python
  function on nonnegative arguments, and nonnegativity of every argument that
  matters is itself one of the verified properties).  `math.atan2`, `math.cos`,
  `math.sin`, `math.log` are modelled by the corresponding real functions.
* The random generator is modelled as an explicit per-iteration oracle
  (`Draw`): each loop iteration consumes one `Draw` carrying the outcome of
  `random.randint(0, 100)`, the two `random.uniform` outcomes and the two
  `random.random()` outcomes that the iteration may use.
* The rotation matrix `C` produced by `numpy.linalg.svd` at search setup is an
  external numerical routine; it is passed to the search as an explicit
  parameter (no verified claim depends on its entries).
* Python's `list.index` and `min` are modelled by `pyIndex` / `pyMin` below.
* `int(x)` applied to the nonnegative quotient `d / expand_dis` is
  `Int.toNat ⌊x⌋` (truncation towards zero; both yield an empty iteration
  range for a negative quotient).
* Division by zero raises in Python; the one place where the planner can
  actually divide by zero (the ellipse axis `a1` when `cMin = 0`) is modelled
  with `Except`.  Everywhere else division is guarded by the code itself.
-/

namespace InformedRRTStar

/-- Fraction of the 101 equally likely outcomes of `random.randint(0, 100)`
for which `sample_free_space` draws a uniform point: the test
`random.randint(0, 100) > self.goal_sample_rate` succeeds.  (Defined before
any classical reasoning so that it stays decidable.) -/
def freeSpaceTakesUniform (goalSampleRate k : ℕ) : Bool :=
  goalSampleRate < k

/-- Number of outcomes of `random.randint(0, 100)` that lead to a uniform
sample rather than the goal. -/
def uniformOutcomeCount (goalSampleRate : ℕ) : ℕ :=
  (List.range 101).countP (fun k => freeSpaceTakesUniform goalSampleRate k)

noncomputable section

open scoped Classical

/-- A planar point, `(x, y)`. -/
abbrev Point : Type := ℝ × ℝ

/-- The `Node` class: position, accumulated cost, optional parent handle
(an index into the node list; `none` only for the root). -/
structure Node where
  x : ℝ
  y : ℝ
  cost : ℝ
  parent : Option ℕ

/-- Construction-time configuration stored verbatim by
`InformedRRTStar.__init__`. -/
structure Config where
  start : Point
  goal : Point
  obstacleList : List (ℝ × ℝ × ℝ)
  minRand : ℝ
  maxRand : ℝ
  expandDis : ℝ
  goalSampleRate : ℕ
  maxIter : ℕ

/-- `InformedRRTStar.__init__`: the constructor merely stores its arguments
(`self.start = Node(start[0], start[1])`, etc.).  It performs no validation
and has no failure path. -/
def init (start goal : Point) (obstacleList : List (ℝ × ℝ × ℝ))
    (randArea : ℝ × ℝ) (expandDis : ℝ) (goalSampleRate : ℕ) (maxIter : ℕ) :
    Config :=
  { start := start
    goal := goal
    obstacleList := obstacleList
    minRand := randArea.1
    maxRand := randArea.2
    expandDis := expandDis
    goalSampleRate := goalSampleRate
    maxIter := maxIter }

/-- Python's `list.index(v)`: index of the first occurrence of `v`.
(Python raises `ValueError` when `v` is absent; the planner only ever calls
it on a member, where this total model returns the same index.) -/
def pyIndex {α : Type} [DecidableEq α] (v : α) : List α → ℕ
  | [] => 0
  | x :: xs => if x = v then 0 else pyIndex v xs + 1

/-- Python's `min` on a list, with an explicit fallback for the empty list
(Python raises there; the planner only calls it on nonempty lists).
`foldl min` returns the first minimal element, exactly like Python. -/
def pyMin {α : Type} [LinearOrder α] (dflt : α) : List α → α
  | [] => dflt
  | x :: xs => xs.foldl min x

/-- `math.atan2 y x`. -/
def atan2 (y x : ℝ) : ℝ :=
  if 0 < x then Real.arctan (y / x)
  else if x < 0 then
    (if 0 ≤ y then Real.arctan (y / x) + Real.pi
     else Real.arctan (y / x) - Real.pi)
  else
    (if 0 < y then Real.pi / 2 else if y < 0 then -(Real.pi / 2) else 0)

/-- Euclidean distance between two points, as the source computes it:
`math.sqrt((x1 - x2) ** 2 + (y1 - y2) ** 2)`. -/
def dist2 (p q : Point) : ℝ :=
  Real.sqrt ((p.1 - q.1) ^ 2 + (p.2 - q.2) ^ 2)

/-- `line_cost(node1, node2)`. -/
def line_cost (node1 node2 : Node) : ℝ :=
  Real.sqrt ((node1.x - node2.x) ^ 2 + (node1.y - node2.y) ^ 2)

/-- `collision_check(newNode, obstacleList)`: `False` (collision) as soon as
some obstacle `(ox, oy, size)` satisfies `dx*dx + dy*dy <= 1.1 * size ** 2`,
else `True` (safe). -/
def collision_check (node : Node) : List (ℝ × ℝ × ℝ) → Bool
  | [] => true
  | (ox, oy, size) :: rest =>
    if (ox - node.x) * (ox - node.x) + (oy - node.y) * (oy - node.y)
        ≤ 1.1 * size ^ 2 then false
    else collision_check node rest

/-- The loop body of `check_collision_extend`: starting from position
`(x, y)`, advance `steps` times by `expandDis` along direction `θ`,
point-testing after each advance; `false` at the first collision. -/
def collisionExtendLoop (cfg : Config) (θ : ℝ) : ℕ → ℝ × ℝ → Bool
  | 0, _ => true
  | steps + 1, (x, y) =>
    let x' := x + cfg.expandDis * Real.cos θ
    let y' := y + cfg.expandDis * Real.sin θ
    if collision_check ⟨x', y', 0, none⟩ cfg.obstacleList then
      collisionExtendLoop cfg θ steps (x', y')
    else false

/-- `check_collision_extend(nearNode, theta, d)`: subdivide into
`int(d / expand_dis)` increments of `expand_dis` along `theta`, point-testing
each. -/
def check_collision_extend (cfg : Config) (nearNode : Node) (θ d : ℝ) : Bool :=
  collisionExtendLoop cfg θ (Int.toNat ⌊d / cfg.expandDis⌋)
    (nearNode.x, nearNode.y)

/-- `get_nearest_list_index(nodes, rnd)`: index of the node minimizing the
squared distance to `rnd` (`dList.index(min(dList))`, so ties go to the
earliest index). -/
def get_nearest_list_index (nodes : List Node) (rnd : Point) : ℕ :=
  let dList := nodes.map (fun node =>
    (node.x - rnd.1) ^ 2 + (node.y - rnd.2) ^ 2)
  pyIndex (pyMin 0 dList) dList

/-- `get_new_node(theta, nind, nearestNode)`: copy the nearest node, move it
by `expand_dis` along `theta`, add `expand_dis` to its cost and set its
parent handle to `nind`. -/
def get_new_node (cfg : Config) (θ : ℝ) (nind : ℕ) (nearestNode : Node) :
    Node :=
  { x := nearestNode.x + cfg.expandDis * Real.cos θ
    y := nearestNode.y + cfg.expandDis * Real.sin θ
    cost := nearestNode.cost + cfg.expandDis
    parent := some nind }

/-- `find_near_nodes(newNode)`: squared distances of all current nodes to
`newNode`, kept when `≤ r ** 2` with `r = 50.0 * sqrt(log(nnode) / nnode)`;
each kept entry contributes `dlist.index(i)`, the index of the *first*
occurrence of that squared-distance value. -/
def find_near_nodes (nodes : List Node) (newNode : Node) : List ℕ :=
  let nnode := nodes.length
  let r := (50 : ℝ) * Real.sqrt (Real.log nnode / nnode)
  let dlist := nodes.map (fun node =>
    (node.x - newNode.x) ^ 2 + (node.y - newNode.y) ^ 2)
  (dlist.filter (fun v => v ≤ r ^ 2)).map (fun v => pyIndex v dlist)

/-- The entry of `dList` in `choose_parent` for candidate index `i`:
`node_list[i].cost + d` when the connecting segment passes
`check_collision_extend`, else `float('inf')`. -/
def chooseParentEntry (cfg : Config) (nodes : List Node) (newNode : Node)
    (i : ℕ) : WithTop ℝ :=
  let nd := nodes.getD i ⟨0, 0, 0, none⟩
  let dx := newNode.x - nd.x
  let dy := newNode.y - nd.y
  let d := Real.sqrt (dx ^ 2 + dy ^ 2)
  let θ := atan2 dy dx
  if check_collision_extend cfg nd θ d then (↑(nd.cost + d) : WithTop ℝ)
  else ⊤

/-- `choose_parent(newNode, nearInds)`: pick the candidate of minimal
reach-through cost; keep the steering-derived node unchanged when the
candidate list is empty or every candidate is infinite. -/
def choose_parent (cfg : Config) (nodes : List Node) (newNode : Node)
    (nearInds : List ℕ) : Node :=
  if nearInds = [] then newNode
  else
    let dList := nearInds.map (chooseParentEntry cfg nodes newNode)
    let minCost := pyMin ⊤ dList
    if h : minCost = ⊤ then newNode
    else
      { newNode with
        cost := minCost.untop h
        parent := some (nearInds.getD (pyIndex minCost dList) 0) }

/-- One step of `rewire`'s loop: for near index `i`, if routing
`node_list[i]` through the new node (index `lastIndex`, cost `newNode.cost`)
is strictly cheaper and the connecting segment is collision-free, reassign
its parent to `lastIndex` and lower its cost. -/
def rewireOne (cfg : Config) (newNode : Node) (lastIndex : ℕ)
    (nodes : List Node) (i : ℕ) : List Node :=
  let nearNode := nodes.getD i ⟨0, 0, 0, none⟩
  let d := Real.sqrt ((nearNode.x - newNode.x) ^ 2
    + (nearNode.y - newNode.y) ^ 2)
  let scost := newNode.cost + d
  if nearNode.cost > scost then
    let θ := atan2 (newNode.y - nearNode.y) (newNode.x - nearNode.x)
    if check_collision_extend cfg nearNode θ d then
      nodes.set i { nearNode with parent := some lastIndex, cost := scost }
    else nodes
  else nodes

/-- `rewire(newNode, nearInds)`, run after the new node has been appended:
`n_node - 1` is the new node's index. -/
def rewire (cfg : Config) (nodes : List Node) (newNode : Node)
    (nearInds : List ℕ) : List Node :=
  nearInds.foldl (rewireOne cfg newNode (nodes.length - 1)) nodes

/-- `is_near_goal(node)`: strict comparison `d < expand_dis`. -/
def is_near_goal (cfg : Config) (node : Node) : Bool :=
  line_cost node ⟨cfg.goal.1, cfg.goal.2, 0, none⟩ < cfg.expandDis

/-- `get_path_len(path)`: sum of consecutive point distances. -/
def get_path_len : List Point → ℝ
  | a :: b :: rest => dist2 b a + get_path_len (b :: rest)
  | _ => 0

/-- The `while` walk of `get_final_course`: follow parent handles, collecting
positions, until a node with `parent == None` is reached.  The walk is given
`nodes.length` steps of fuel; by the acyclicity theorem below every parent
chain of a reachable tree reaches the root within that many hops, so the fuel
never runs out on the states the planner produces. -/
def walkToRoot (nodes : List Node) : ℕ → ℕ → List Point
  | 0, _ => []
  | fuel + 1, idx =>
    match nodes[idx]? with
    | none => []
    | some nd =>
      match nd.parent with
      | none => []
      | some p => (nd.x, nd.y) :: walkToRoot nodes fuel p

/-- `get_final_course(lastIndex)`: `[[goal]] ++ walk ++ [[start]]`. -/
def get_final_course (cfg : Config) (nodes : List Node) (lastIndex : ℕ) :
    List Point :=
  cfg.goal :: (walkToRoot nodes nodes.length lastIndex ++ [cfg.start])

/-- Per-iteration random oracle: the outcome of `random.randint(0, 100)`,
the two `random.uniform(min_rand, max_rand)` outcomes, and the two
`random.random()` outcomes used by `sample_unit_ball`. -/
structure Draw where
  k : ℕ
  u1 : ℝ
  u2 : ℝ
  a : ℝ
  b : ℝ

/-- `sample_free_space()`: a uniform point when
`random.randint(0, 100) > goal_sample_rate`, else exactly the goal. -/
def sample_free_space (cfg : Config) (dr : Draw) : Point :=
  if freeSpaceTakesUniform cfg.goalSampleRate dr.k then (dr.u1, dr.u2)
  else (cfg.goal.1, cfg.goal.2)

/-- `sample_unit_ball()`: the closed-form rejection-free unit-disk sample,
`(b cos(2πa/b), b sin(2πa/b))` after swapping so that `a ≤ b`. -/
def sample_unit_ball (a b : ℝ) : ℝ × ℝ :=
  let p := if b < a then (b, a) else (a, b)
  (p.2 * Real.cos (2 * Real.pi * p.1 / p.2),
   p.2 * Real.sin (2 * Real.pi * p.1 / p.2))

/-- The argument of the square root in `informed_sample`'s minor semi-axis,
`cMax ** 2 - cMin ** 2`. -/
def informedAxisArg (cMax cMin : ℝ) : ℝ :=
  cMax ^ 2 - cMin ^ 2

/-- The informed-mode sample: `C @ diag(r) @ xBall + xCenter`, rows 0 and 1
(`xBall` has third component 0, so the third column of `C` is multiplied by
zero). -/
def ellipsePoint (Cmat : Fin 3 → Fin 3 → ℝ) (r1 r2 : ℝ) (ball : ℝ × ℝ)
    (xCenter : Point) : Point :=
  (Cmat 0 0 * (r1 * ball.1) + Cmat 0 1 * (r2 * ball.2) + xCenter.1,
   Cmat 1 0 * (r1 * ball.1) + Cmat 1 1 * (r2 * ball.2) + xCenter.2)

/-- `informed_sample(cMax, cMin, xCenter, C)`: ellipsoid sampling when
`cMax < float('inf')`, otherwise `sample_free_space`. -/
def informed_sample (cfg : Config) (Cmat : Fin 3 → Fin 3 → ℝ)
    (cMax : WithTop ℝ) (cMin : ℝ) (xCenter : Point) (dr : Draw) : Point :=
  match cMax with
  | ⊤ => sample_free_space cfg dr
  | (c : ℝ) =>
    ellipsePoint Cmat (c / 2) (Real.sqrt (informedAxisArg c cMin) / 2)
      (sample_unit_ball dr.a dr.b) xCenter

/-- The mutable state of one run of `informed_rrt_star_search`:
the node list, `cBest`, `pathLen` and the best `path` found so far.
(`solutionSet` is write-only in the source and is omitted.) -/
structure SState where
  nodes : List Node
  cBest : WithTop ℝ
  pathLen : WithTop ℝ
  path : Option (List Point)

/-- The state at loop entry: `node_list = [start]` (cost 0, no parent),
`cBest = pathLen = inf`, `path = None`. -/
def initState (cfg : Config) : SState :=
  { nodes := [⟨cfg.start.1, cfg.start.2, 0, none⟩]
    cBest := ⊤
    pathLen := ⊤
    path := none }

/-- One iteration of the search loop (lines 69–94 of the source), given the
iteration's random oracle: sample, nearest, steer, validate, choose parent,
insert, rewire, goal-check-and-record. -/
def growOnce (cfg : Config) (Cmat : Fin 3 → Fin 3 → ℝ) (cMin : ℝ)
    (xCenter : Point) (s : SState) (dr : Draw) : SState :=
  let rnd := informed_sample cfg Cmat s.cBest cMin xCenter dr
  let nind := get_nearest_list_index s.nodes rnd
  let nearestNode := s.nodes.getD nind ⟨0, 0, 0, none⟩
  let θ := atan2 (rnd.2 - nearestNode.y) (rnd.1 - nearestNode.x)
  let newNode := get_new_node cfg θ nind nearestNode
  let d := line_cost nearestNode newNode
  if collision_check newNode cfg.obstacleList
      ∧ check_collision_extend cfg nearestNode θ d then
    let nearInds := find_near_nodes s.nodes newNode
    let newNode2 := choose_parent cfg s.nodes newNode nearInds
    let nodes2 := s.nodes ++ [newNode2]
    let nodes3 := rewire cfg nodes2 newNode2 nearInds
    if is_near_goal cfg newNode2 then
      let lastIndex := nodes3.length - 1
      let tempPath := get_final_course cfg nodes3 lastIndex
      let tempPathLen := get_path_len tempPath
      if (↑tempPathLen : WithTop ℝ) < s.pathLen then
        { nodes := nodes3
          cBest := ↑tempPathLen
          pathLen := s.pathLen
          path := some tempPath }
      else { s with nodes := nodes3 }
    else { s with nodes := nodes3 }
  else s

/-- The straight-line start–goal distance `cMin` computed at search setup. -/
def cMinOf (cfg : Config) : ℝ :=
  dist2 cfg.start cfg.goal

/-- The ellipse center computed at search setup (planar components). -/
def xCenterOf (cfg : Config) : Point :=
  ((cfg.start.1 + cfg.goal.1) / 2, (cfg.start.2 + cfg.goal.2) / 2)

/-- The setup phase of `informed_rrt_star_search` (lines 47–53): computing
`cMin`, `xCenter` and the unit direction `a1`.  The division
`(goal - start) / cMin` raises `ZeroDivisionError` in Python exactly when
`cMin = 0`, i.e. when the start coincides with the goal. -/
def searchSetup (cfg : Config) : Except String (ℝ × Point × Point) :=
  let cMin := cMinOf cfg
  if cMin = 0 then Except.error "ZeroDivisionError: float division by zero"
  else
    Except.ok (cMin, xCenterOf cfg,
      ((cfg.goal.1 - cfg.start.1) / cMin, (cfg.goal.2 - cfg.start.2) / cMin))

/-- The full state reached after folding the search loop over the given
per-iteration oracles (one `Draw` per iteration of the `for` loop; a run with
iteration budget `maxIter` corresponds to a list of `maxIter` draws). -/
def searchState (cfg : Config) (Cmat : Fin 3 → Fin 3 → ℝ)
    (draws : List Draw) : SState :=
  draws.foldl (growOnce cfg Cmat (cMinOf cfg) (xCenterOf cfg)) (initState cfg)

/-- `informed_rrt_star_search`: setup (which can raise on a degenerate
configuration), then the loop, then the best path (or `none`). -/
def informed_rrt_star_search (cfg : Config) (Cmat : Fin 3 → Fin 3 → ℝ)
    (draws : List Draw) : Except String (Option (List Point)) :=
  match searchSetup cfg with
  | Except.error e => Except.error e
  | Except.ok _ => Except.ok (searchState cfg Cmat draws).path

/-! ### Basic geometric facts -/

/-- Evaluation helper: `Real.sqrt a = b` for concrete perfect squares. -/
theorem sqrt_eval {a b : ℝ} (hb : 0 ≤ b) (h : a = b ^ 2) : Real.sqrt a = b := by
  rw [h, Real.sqrt_sq hb]

theorem dist2_nonneg (p q : Point) : 0 ≤ dist2 p q :=
  Real.sqrt_nonneg _

theorem dist2_self (p : Point) : dist2 p p = 0 := by
  simp [dist2]

theorem dist2_symm (p q : Point) : dist2 p q = dist2 q p := by
  unfold dist2
  rw [show (p.1 - q.1) ^ 2 + (p.2 - q.2) ^ 2
      = (q.1 - p.1) ^ 2 + (q.2 - p.2) ^ 2 by ring]

/-- The planar point `(x, y)` viewed as the complex number `x + y i`
(used only to transport the triangle inequality). -/
def toC (p : Point) : ℂ :=
  ⟨p.1, p.2⟩

theorem dist2_eq_abs (p q : Point) : dist2 p q = Complex.abs (toC p - toC q) := by
  rw [Complex.abs_apply]
  unfold dist2
  congr 1
  simp only [Complex.normSq_apply, toC, Complex.sub_re, Complex.sub_im]
  ring

theorem dist2_triangle (p q r : Point) :
    dist2 p r ≤ dist2 p q + dist2 q r := by
  simp only [dist2_eq_abs]
  exact Complex.abs.sub_le (toC p) (toC q) (toC r)

theorem get_path_len_nonneg : ∀ p : List Point, 0 ≤ get_path_len p
  | [] => le_refl 0
  | [_] => le_refl 0
  | a :: b :: rest => by
    rw [get_path_len]
    have h1 := dist2_nonneg b a
    have h2 := get_path_len_nonneg (b :: rest)
    linarith

/-- A listed path is at least as long as the straight line between its
endpoints (chained triangle inequality). -/
theorem get_path_len_ge_endpoints :
    ∀ (p : List Point) (a b : Point), p.head? = some a →
      p.getLast? = some b → dist2 a b ≤ get_path_len p
  | [], _, _, h, _ => by simp at h
  | [x], a, b, ha, hb => by
    simp only [List.head?_cons, Option.some.injEq] at ha
    simp only [List.getLast?_singleton, Option.some.injEq] at hb
    subst ha; subst hb
    rw [dist2_self]
    exact get_path_len_nonneg _
  | x :: y :: rest, a, b, ha, hb => by
    simp only [List.head?_cons, Option.some.injEq] at ha
    subst ha
    have hb' : (y :: rest).getLast? = some b := by
      rw [← hb, List.getLast?_cons_cons]
    have ih := get_path_len_ge_endpoints (y :: rest) y b rfl hb'
    rw [get_path_len]
    have htri := dist2_triangle x y b
    have hsymm : dist2 y x = dist2 x y := dist2_symm _ _
    linarith

theorem get_final_course_head (cfg : Config) (nodes : List Node)
    (lastIndex : ℕ) :
    (get_final_course cfg nodes lastIndex).head? = some cfg.goal := by
  rfl

theorem get_final_course_getLast (cfg : Config) (nodes : List Node)
    (lastIndex : ℕ) :
    (get_final_course cfg nodes lastIndex).getLast? = some cfg.start := by
  unfold get_final_course
  rw [show cfg.goal :: (walkToRoot nodes nodes.length lastIndex ++ [cfg.start])
      = (cfg.goal :: walkToRoot nodes nodes.length lastIndex) ++ [cfg.start]
    from rfl]
  exact List.getLast?_concat _

/-- Every extracted candidate path is at least `cMin` long: its first point
is the goal, its last point is the start, and `get_path_len` dominates the
straight-line distance between them. -/
theorem get_final_course_len_ge_cMin (cfg : Config) (nodes : List Node)
    (lastIndex : ℕ) :
    cMinOf cfg ≤ get_path_len (get_final_course cfg nodes lastIndex) := by
  have h := get_path_len_ge_endpoints (get_final_course cfg nodes lastIndex)
    cfg.goal cfg.start (get_final_course_head cfg nodes lastIndex)
    (get_final_course_getLast cfg nodes lastIndex)
  rw [cMinOf, dist2_symm]
  exact h

/-! ### Node-list accessors -/

/-- Parent handle of the node at index `j` (`none` past the end). -/
def nparent (nodes : List Node) (j : ℕ) : Option ℕ :=
  (nodes[j]?).bind Node.parent

/-- Cost of the node at index `j` (0 past the end). -/
def ncost (nodes : List Node) (j : ℕ) : ℝ :=
  ((nodes[j]?).map Node.cost).getD 0

/-- Position of the node at index `j` (`(0, 0)` past the end). -/
def npos (nodes : List Node) (j : ℕ) : Point :=
  ((nodes[j]?).map (fun nd => (nd.x, nd.y))).getD (0, 0)

/-- One step of the parent chain, as a total function on indices: follow the
parent handle, staying put at the root (or at an out-of-range index). -/
def parStep (nodes : List Node) (j : ℕ) : ℕ :=
  (nparent nodes j).getD j

theorem nparent_append_lt (nodes : List Node) (nn : Node) {j : ℕ}
    (h : j < nodes.length) : nparent (nodes ++ [nn]) j = nparent nodes j := by
  unfold nparent
  rw [List.getElem?_append_left h]

theorem ncost_append_lt (nodes : List Node) (nn : Node) {j : ℕ}
    (h : j < nodes.length) : ncost (nodes ++ [nn]) j = ncost nodes j := by
  unfold ncost
  rw [List.getElem?_append_left h]

theorem npos_append_lt (nodes : List Node) (nn : Node) {j : ℕ}
    (h : j < nodes.length) : npos (nodes ++ [nn]) j = npos nodes j := by
  unfold npos
  rw [List.getElem?_append_left h]

theorem nparent_append_last (nodes : List Node) (nn : Node) :
    nparent (nodes ++ [nn]) nodes.length = nn.parent := by
  unfold nparent
  rw [List.getElem?_concat_length]
  rfl

theorem ncost_append_last (nodes : List Node) (nn : Node) :
    ncost (nodes ++ [nn]) nodes.length = nn.cost := by
  unfold ncost
  rw [List.getElem?_concat_length]
  rfl

theorem npos_append_last (nodes : List Node) (nn : Node) :
    npos (nodes ++ [nn]) nodes.length = (nn.x, nn.y) := by
  unfold npos
  rw [List.getElem?_concat_length]
  rfl

theorem parStep_append_lt (nodes : List Node) (nn : Node) {j : ℕ}
    (h : j < nodes.length) : parStep (nodes ++ [nn]) j = parStep nodes j := by
  unfold parStep
  rw [nparent_append_lt nodes nn h]

theorem nparent_set_ne (nodes : List Node) (i : ℕ) (nd : Node) {j : ℕ}
    (h : j ≠ i) : nparent (nodes.set i nd) j = nparent nodes j := by
  unfold nparent
  rw [List.getElem?_set_ne (fun he => h he.symm)]

theorem ncost_set_ne (nodes : List Node) (i : ℕ) (nd : Node) {j : ℕ}
    (h : j ≠ i) : ncost (nodes.set i nd) j = ncost nodes j := by
  unfold ncost
  rw [List.getElem?_set_ne (fun he => h he.symm)]

theorem npos_set_ne (nodes : List Node) (i : ℕ) (nd : Node) {j : ℕ}
    (h : j ≠ i) : npos (nodes.set i nd) j = npos nodes j := by
  unfold npos
  rw [List.getElem?_set_ne (fun he => h he.symm)]

theorem nparent_set_self (nodes : List Node) {i : ℕ} (nd : Node)
    (h : i < nodes.length) : nparent (nodes.set i nd) i = nd.parent := by
  unfold nparent
  rw [List.getElem?_set_self h]
  rfl

theorem ncost_set_self (nodes : List Node) {i : ℕ} (nd : Node)
    (h : i < nodes.length) : ncost (nodes.set i nd) i = nd.cost := by
  unfold ncost
  rw [List.getElem?_set_self h]
  rfl

theorem npos_set_self (nodes : List Node) {i : ℕ} (nd : Node)
    (h : i < nodes.length) : npos (nodes.set i nd) i = (nd.x, nd.y) := by
  unfold npos
  rw [List.getElem?_set_self h]
  rfl

theorem parStep_set_ne (nodes : List Node) (i : ℕ) (nd : Node) {j : ℕ}
    (h : j ≠ i) : parStep (nodes.set i nd) j = parStep nodes j := by
  unfold parStep
  rw [nparent_set_ne nodes i nd h]

/-! ### Facts about `pyMin` and `pyIndex` -/

theorem foldl_min_mem {α : Type} [LinearOrder α] :
    ∀ (xs : List α) (x : α), xs.foldl min x = x ∨ xs.foldl min x ∈ xs
  | [], _ => Or.inl rfl
  | y :: ys, x => by
    rcases foldl_min_mem ys (min x y) with h | h
    · rcases min_choice x y with hm | hm
      · exact Or.inl (by rw [List.foldl_cons, h, hm])
      · exact Or.inr (by rw [List.foldl_cons, h, hm]; exact List.mem_cons_self _ _)
    · exact Or.inr (List.mem_cons_of_mem _ h)

theorem pyMin_mem {α : Type} [LinearOrder α] (dflt : α) (l : List α)
    (h : l ≠ []) : pyMin dflt l ∈ l := by
  match l with
  | [] => exact absurd rfl h
  | x :: xs =>
    rcases foldl_min_mem xs x with h' | h'
    · rw [pyMin, h']; exact List.mem_cons_self _ _
    · rw [pyMin]; exact List.mem_cons_of_mem _ h'

theorem foldl_min_le {α : Type} [LinearOrder α] :
    ∀ (xs : List α) (x : α), xs.foldl min x ≤ x ∧ ∀ v ∈ xs, xs.foldl min x ≤ v
  | [], _ => ⟨le_refl _, by intro v hv; cases hv⟩
  | y :: ys, x => by
    obtain ⟨h1, h2⟩ := foldl_min_le ys (min x y)
    refine ⟨le_trans h1 (min_le_left _ _), ?_⟩
    intro v hv
    rcases List.mem_cons.1 hv with rfl | hv
    · exact le_trans h1 (min_le_right _ _)
    · exact h2 v hv

theorem pyMin_le {α : Type} [LinearOrder α] (dflt : α) (l : List α) :
    ∀ v ∈ l, pyMin dflt l ≤ v := by
  match l with
  | [] => intro v hv; cases hv
  | x :: xs =>
    intro v hv
    rcases List.mem_cons.1 hv with rfl | hv
    · exact (foldl_min_le xs v).1
    · exact (foldl_min_le xs x).2 v hv

theorem pyIndex_lt_length {α : Type} [DecidableEq α] {v : α} :
    ∀ {l : List α}, v ∈ l → pyIndex v l < l.length
  | [], h => absurd h (List.not_mem_nil v)
  | x :: xs, h => by
    rw [pyIndex]
    by_cases hx : x = v
    · rw [if_pos hx]; exact Nat.succ_pos _
    · rw [if_neg hx]
      have hv : v ∈ xs := by
        rcases List.mem_cons.1 h with rfl | h'
        · exact absurd rfl hx
        · exact h'
      exact Nat.succ_lt_succ (pyIndex_lt_length hv)

theorem getElem?_pyIndex {α : Type} [DecidableEq α] {v : α} :
    ∀ {l : List α}, v ∈ l → l[pyIndex v l]? = some v
  | [], h => absurd h (List.not_mem_nil v)
  | x :: xs, h => by
    rw [pyIndex]
    by_cases hx : x = v
    · rw [if_pos hx, hx]; simp
    · rw [if_neg hx]
      have hv : v ∈ xs := by
        rcases List.mem_cons.1 h with rfl | h'
        · exact absurd rfl hx
        · exact h'
      simpa using getElem?_pyIndex hv

/-- On a duplicate-free list, `pyIndex` of the `i`-th element is `i`. -/
theorem pyIndex_getElem_of_nodup {α : Type} [DecidableEq α] :
    ∀ {l : List α}, l.Nodup → ∀ {i : ℕ} (h : i < l.length),
      pyIndex (l[i]) l = i
  | [], _, i, h => absurd h (Nat.not_lt_zero i)
  | x :: xs, hnd, 0, h => by rw [pyIndex]; simp
  | x :: xs, hnd, i + 1, h => by
    rw [pyIndex]
    have hi : i < xs.length := Nat.lt_of_succ_lt_succ h
    have heq : (x :: xs)[i + 1] = xs[i] := rfl
    have hmem : (x :: xs)[i + 1] ∈ xs := by
      rw [heq]
      exact List.getElem_mem _
    have hx : ¬(x = (x :: xs)[i + 1]) := by
      intro he
      exact (List.nodup_cons.1 hnd).1 (he ▸ hmem)
    rw [if_neg hx, heq,
      pyIndex_getElem_of_nodup (List.nodup_cons.1 hnd).2 hi]

/-! ### Index bounds produced by the planner's helper functions -/

theorem get_nearest_list_index_lt (nodes : List Node) (h : nodes ≠ [])
    (rnd : Point) : get_nearest_list_index nodes rnd < nodes.length := by
  unfold get_nearest_list_index
  have hne : nodes.map (fun node =>
      (node.x - rnd.1) ^ 2 + (node.y - rnd.2) ^ 2) ≠ [] := by
    simpa using h
  have hmem := pyMin_mem 0 _ hne
  have := pyIndex_lt_length hmem
  simpa using this

theorem find_near_nodes_lt (nodes : List Node) (newNode : Node) :
    ∀ i ∈ find_near_nodes nodes newNode, i < nodes.length := by
  intro i hi
  unfold find_near_nodes at hi
  obtain ⟨v, hvf, rfl⟩ := List.mem_map.1 hi
  have hv : v ∈ nodes.map (fun node =>
      (node.x - newNode.x) ^ 2 + (node.y - newNode.y) ^ 2) :=
    (List.mem_filter.1 hvf).1
  have hlt : pyIndex v (nodes.map (fun node =>
      (node.x - newNode.x) ^ 2 + (node.y - newNode.y) ^ 2))
      < (nodes.map (fun node =>
      (node.x - newNode.x) ^ 2 + (node.y - newNode.y) ^ 2)).length :=
    pyIndex_lt_length hv
  simpa using hlt

/-- What `choose_parent` can return: either the steering-derived node
unchanged (empty candidate list, or every candidate at infinite cost), or the
node re-parented onto some candidate `i` with cost exactly
`node_list[i].cost + distance(new, i)`. -/
theorem choose_parent_spec (cfg : Config) (nodes : List Node) (newNode : Node)
    (nearInds : List ℕ) :
    choose_parent cfg nodes newNode nearInds = newNode ∨
    ∃ i, i ∈ nearInds ∧
      choose_parent cfg nodes newNode nearInds =
        { newNode with
          cost := (nodes.getD i ⟨0, 0, 0, none⟩).cost
            + dist2 (newNode.x, newNode.y)
              ((nodes.getD i ⟨0, 0, 0, none⟩).x,
               (nodes.getD i ⟨0, 0, 0, none⟩).y)
          parent := some i } := by
  unfold choose_parent
  by_cases hni : nearInds = []
  · rw [if_pos hni]; exact Or.inl rfl
  · rw [if_neg hni]
    simp only []
    set dList := nearInds.map (chooseParentEntry cfg nodes newNode) with hdl
    have hdlne : dList ≠ [] := by
      rw [hdl]; simpa using hni
    by_cases hmc : pyMin ⊤ dList = ⊤
    · rw [dif_pos hmc]; exact Or.inl rfl
    · rw [dif_neg hmc]
      right
      have hmem : pyMin ⊤ dList ∈ dList := pyMin_mem ⊤ dList hdlne
      set k := pyIndex (pyMin ⊤ dList) dList with hk
      have hklt : k < dList.length := pyIndex_lt_length hmem
      have hkl : k < nearInds.length := by
        rw [hdl] at hklt; simpa using hklt
      have hget : dList[k]? = some (pyMin ⊤ dList) := getElem?_pyIndex hmem
      have hentry : chooseParentEntry cfg nodes newNode (nearInds[k])
          = pyMin ⊤ dList := by
        have h1 : dList[k]?
            = some (chooseParentEntry cfg nodes newNode (nearInds[k])) := by
          rw [hdl, List.getElem?_map, List.getElem?_eq_getElem hkl]
          rfl
        rw [h1] at hget
        exact Option.some_inj.1 hget
      refine ⟨nearInds[k], List.getElem_mem hkl, ?_⟩
      have hgd : nearInds.getD k 0 = nearInds[k] := by
        rw [List.getD_eq_getElem?_getD, List.getElem?_eq_getElem hkl]
        rfl
      unfold chooseParentEntry at hentry
      set nd := nodes.getD (nearInds[k]) ⟨0, 0, 0, none⟩ with hnd
      by_cases hcol : check_collision_extend cfg nd
          (atan2 (newNode.y - nd.y) (newNode.x - nd.x))
          (Real.sqrt ((newNode.x - nd.x) ^ 2 + (newNode.y - nd.y) ^ 2)) = true
      · rw [if_pos hcol] at hentry
        have huntop : (pyMin ⊤ dList).untop hmc
            = nd.cost + Real.sqrt ((newNode.x - nd.x) ^ 2
              + (newNode.y - nd.y) ^ 2) :=
          (WithTop.untop_eq_iff hmc).2 hentry.symm
        have hdist : dist2 (newNode.x, newNode.y) (nd.x, nd.y)
            = Real.sqrt ((newNode.x - nd.x) ^ 2 + (newNode.y - nd.y) ^ 2) := rfl
        rw [hgd, huntop, hdist]
      · rw [if_neg hcol] at hentry
        exact absurd hentry.symm hmc

/-! ### The tree invariant maintained by the grow loop -/

/-- Structural invariant of the node list: a unique root at index 0 with
cost 0, every other node carrying a valid parent handle whose recorded cost
is a lower bound (`cost(parent) + distance ≤ cost`; equality can be lost for
descendants of rewired nodes, the inequality never is), nonnegative costs,
and every parent chain reaching the root. -/
structure TreeInv (nodes : List Node) : Prop where
  nonempty : nodes ≠ []
  root_parent : nparent nodes 0 = none
  root_cost : ncost nodes 0 = 0
  parent_isSome : ∀ j, j < nodes.length → j ≠ 0 → nparent nodes j ≠ none
  parent_lt : ∀ j p, nparent nodes j = some p → p < nodes.length
  cost_ge : ∀ j p, nparent nodes j = some p →
    ncost nodes p + dist2 (npos nodes j) (npos nodes p) ≤ ncost nodes j
  cost_nonneg : ∀ j, 0 ≤ ncost nodes j
  reaches : ∀ j, j < nodes.length → ∃ k, (parStep nodes)^[k] j = 0

theorem nparent_out (nodes : List Node) {j : ℕ} (h : nodes.length ≤ j) :
    nparent nodes j = none := by
  unfold nparent
  rw [List.getElem?_eq_none h]
  rfl

theorem ncost_out (nodes : List Node) {j : ℕ} (h : nodes.length ≤ j) :
    ncost nodes j = 0 := by
  unfold ncost
  rw [List.getElem?_eq_none h]
  rfl

theorem TreeInv.length_pos {nodes : List Node} (inv : TreeInv nodes) :
    0 < nodes.length :=
  List.length_pos.2 inv.nonempty

theorem TreeInv.parStep_zero {nodes : List Node} (inv : TreeInv nodes) :
    parStep nodes 0 = 0 := by
  unfold parStep
  rw [inv.root_parent]
  rfl

theorem TreeInv.parStep_lt {nodes : List Node} (inv : TreeInv nodes) {j : ℕ}
    (h : j < nodes.length) : parStep nodes j < nodes.length := by
  unfold parStep
  rcases hp : nparent nodes j with _ | p
  · exact h
  · exact inv.parent_lt j p hp

theorem TreeInv.chain_lt {nodes : List Node} (inv : TreeInv nodes) :
    ∀ (k : ℕ) {j : ℕ}, j < nodes.length →
      (parStep nodes)^[k] j < nodes.length := by
  intro k
  induction k with
  | zero => intro j h; simpa using h
  | succ k ih =>
    intro j h
    rw [Function.iterate_succ_apply]
    exact ih (inv.parStep_lt h)

theorem TreeInv.cost_parStep_le {nodes : List Node} (inv : TreeInv nodes)
    (j : ℕ) : ncost nodes (parStep nodes j) ≤ ncost nodes j := by
  unfold parStep
  rcases hp : nparent nodes j with _ | p
  · exact le_refl _
  · have h := inv.cost_ge j p hp
    have hd := dist2_nonneg (npos nodes j) (npos nodes p)
    simpa using le_trans (by linarith) h

theorem TreeInv.cost_chain_le {nodes : List Node} (inv : TreeInv nodes) :
    ∀ (k : ℕ) (j : ℕ), ncost nodes ((parStep nodes)^[k] j) ≤ ncost nodes j := by
  intro k
  induction k with
  | zero => intro j; simp
  | succ k ih =>
    intro j
    rw [Function.iterate_succ_apply']
    exact le_trans (inv.cost_parStep_le _) (ih j)

/-- Appending a node does not change the parent chains of existing nodes. -/
theorem chain_append_eq {nodes : List Node} (inv : TreeInv nodes) (nn : Node) :
    ∀ (k : ℕ) {j : ℕ}, j < nodes.length →
      (parStep (nodes ++ [nn]))^[k] j = (parStep nodes)^[k] j := by
  intro k
  induction k with
  | zero => intro j _; rfl
  | succ k ih =>
    intro j h
    rw [Function.iterate_succ_apply, Function.iterate_succ_apply,
      parStep_append_lt nodes nn h]
    exact ih (inv.parStep_lt h)

/-- The invariant is preserved by appending a node whose parent handle is a
valid earlier index and whose cost dominates the parent's cost plus the
connecting distance. -/
theorem treeInv_append {nodes : List Node} (inv : TreeInv nodes) {nn : Node}
    {p : ℕ} (hp : nn.parent = some p) (hplt : p < nodes.length)
    (hcost : ncost nodes p + dist2 (nn.x, nn.y) (npos nodes p) ≤ nn.cost) :
    TreeInv (nodes ++ [nn]) := by
  have hlen : (nodes ++ [nn]).length = nodes.length + 1 := by simp
  have hnn0 : 0 ≤ nn.cost :=
    le_trans (by
      have := inv.cost_nonneg p
      have := dist2_nonneg (nn.x, nn.y) (npos nodes p)
      linarith) hcost
  have h0 : 0 < nodes.length := inv.length_pos
  refine ⟨by simp, ?_, ?_, ?_, ?_, ?_, ?_, ?_⟩
  · rw [nparent_append_lt nodes nn h0]
    exact inv.root_parent
  · rw [ncost_append_lt nodes nn h0]
    exact inv.root_cost
  · intro j hj hj0
    rcases Nat.lt_or_ge j nodes.length with hlt | hge
    · rw [nparent_append_lt nodes nn hlt]
      exact inv.parent_isSome j hlt hj0
    · have hj' : j = nodes.length := by omega
      subst hj'
      rw [nparent_append_last nodes nn, hp]
      simp
  · intro j q hq
    rcases Nat.lt_or_ge j nodes.length with hlt | hge
    · rw [nparent_append_lt nodes nn hlt] at hq
      have := inv.parent_lt j q hq
      omega
    · rcases Nat.lt_or_ge j (nodes ++ [nn]).length with hlt2 | hge2
      · have hj' : j = nodes.length := by omega
        subst hj'
        rw [nparent_append_last nodes nn, hp] at hq
        have : q = p := by
          injection hq with h
          omega
        omega
      · rw [nparent_out _ hge2] at hq
        cases hq
  · intro j q hq
    rcases Nat.lt_or_ge j nodes.length with hlt | hge
    · rw [nparent_append_lt nodes nn hlt] at hq
      have hqlt : q < nodes.length := inv.parent_lt j q hq
      rw [ncost_append_lt nodes nn hlt, ncost_append_lt nodes nn hqlt,
        npos_append_lt nodes nn hlt, npos_append_lt nodes nn hqlt]
      exact inv.cost_ge j q hq
    · rcases Nat.lt_or_ge j (nodes ++ [nn]).length with hlt2 | hge2
      · have hj' : j = nodes.length := by omega
        subst hj'
        rw [nparent_append_last nodes nn, hp] at hq
        have hqp : q = p := by
          injection hq with h
          omega
        subst hqp
        rw [ncost_append_last nodes nn, npos_append_last nodes nn,
          ncost_append_lt nodes nn hplt, npos_append_lt nodes nn hplt]
        exact hcost
      · rw [nparent_out _ hge2] at hq
        cases hq
  · intro j
    rcases Nat.lt_or_ge j nodes.length with hlt | hge
    · rw [ncost_append_lt nodes nn hlt]
      exact inv.cost_nonneg j
    · rcases Nat.lt_or_ge j (nodes ++ [nn]).length with hlt2 | hge2
      · have hj' : j = nodes.length := by omega
        subst hj'
        rw [ncost_append_last nodes nn]
        exact hnn0
      · rw [ncost_out _ hge2]
  · intro j hj
    rcases Nat.lt_or_ge j nodes.length with hlt | hge
    · obtain ⟨k, hk⟩ := inv.reaches j hlt
      exact ⟨k, by rw [chain_append_eq inv nn k hlt]; exact hk⟩
    · have hj' : j = nodes.length := by omega
      subst hj'
      obtain ⟨k, hk⟩ := inv.reaches p hplt
      refine ⟨k + 1, ?_⟩
      rw [Function.iterate_succ_apply]
      have hstep : parStep (nodes ++ [nn]) nodes.length = p := by
        unfold parStep
        rw [nparent_append_last nodes nn, hp]
        rfl
      rw [hstep, chain_append_eq inv nn k hplt]
      exact hk

theorem getD_eq_get (nodes : List Node) {i : ℕ} (h : i < nodes.length)
    (d : Node) : nodes.getD i d = nodes[i] := by
  rw [List.getD_eq_getElem?_getD, List.getElem?_eq_getElem h]
  rfl

theorem ncost_lt_eq (nodes : List Node) {i : ℕ} (h : i < nodes.length) :
    ncost nodes i = (nodes.getD i ⟨0, 0, 0, none⟩).cost := by
  unfold ncost
  rw [List.getElem?_eq_getElem h, getD_eq_get nodes h]
  rfl

theorem npos_lt_eq (nodes : List Node) {i : ℕ} (h : i < nodes.length) :
    npos nodes i = ((nodes.getD i ⟨0, 0, 0, none⟩).x,
      (nodes.getD i ⟨0, 0, 0, none⟩).y) := by
  unfold npos
  rw [List.getElem?_eq_getElem h, getD_eq_get nodes h]
  rfl

/-- Invariant preservation for a single pass of `rewire`'s loop, together
with the facts that the list keeps its length and its last entry (the newly
inserted node) untouched. -/
theorem rewireOne_preserves (cfg : Config) {nodes : List Node} {nn : Node}
    (inv : TreeInv nodes)
    (hlast : nodes[nodes.length - 1]? = some nn)
    {i : ℕ} (hi : i < nodes.length - 1) :
    TreeInv (rewireOne cfg nn (nodes.length - 1) nodes i)
      ∧ (rewireOne cfg nn (nodes.length - 1) nodes i).length = nodes.length
      ∧ (rewireOne cfg nn (nodes.length - 1) nodes i)[nodes.length - 1]?
          = some nn := by
  have hL : 0 < nodes.length := inv.length_pos
  have hlast_lt : nodes.length - 1 < nodes.length := by omega
  have hilt : i < nodes.length := by omega
  have hne_last : i ≠ nodes.length - 1 := by omega
  unfold rewireOne
  set nearNode := nodes.getD i ⟨0, 0, 0, none⟩ with hnear
  set d := Real.sqrt ((nearNode.x - nn.x) ^ 2 + (nearNode.y - nn.y) ^ 2)
    with hd
  by_cases hg : nearNode.cost > nn.cost + d
  · rw [if_pos hg]
    by_cases hcol : check_collision_extend cfg nearNode
        (atan2 (nn.y - nearNode.y) (nn.x - nearNode.x)) d = true
    · rw [if_pos hcol]
      -- The rewire fires: the near node is re-parented onto the new node.
      set upd : Node :=
        { nearNode with parent := some (nodes.length - 1), cost := nn.cost + d }
        with hupd
      -- Accessor bookkeeping.
      have hncost_i : ncost nodes i = nearNode.cost := ncost_lt_eq nodes hilt
      have hncost_last : ncost nodes (nodes.length - 1) = nn.cost := by
        unfold ncost; rw [hlast]; rfl
      have hnpos_last : npos nodes (nodes.length - 1) = (nn.x, nn.y) := by
        unfold npos; rw [hlast]; rfl
      have hnpos_i : npos nodes i = (nearNode.x, nearNode.y) :=
        npos_lt_eq nodes hilt
      have hdd : d = dist2 (npos nodes i) (npos nodes (nodes.length - 1)) := by
        rw [hnpos_i, hnpos_last]; rfl
      have hnn0 : 0 ≤ nn.cost := by
        have := inv.cost_nonneg (nodes.length - 1)
        rwa [hncost_last] at this
      have hd0 : 0 ≤ d := Real.sqrt_nonneg _
      have hi0 : i ≠ 0 := by
        intro h0
        have hroot : ncost nodes 0 = 0 := inv.root_cost
        have h1 : nearNode.cost = 0 := by
          rw [← hncost_i, h0, hroot]
        linarith
      have hlen' : (nodes.set i upd).length = nodes.length := by simp
      -- Positions are unchanged everywhere.
      have hpos : ∀ t, npos (nodes.set i upd) t = npos nodes t := by
        intro t
        by_cases ht : t = i
        · subst ht
          rw [npos_set_self nodes upd hilt, hnpos_i]
        · exact npos_set_ne nodes i upd ht
      have hcost_ne : ∀ t, t ≠ i → ncost (nodes.set i upd) t = ncost nodes t :=
        fun t ht => ncost_set_ne nodes i upd ht
      have hcost_i : ncost (nodes.set i upd) i = nn.cost + d :=
        ncost_set_self nodes upd hilt
      have hpar_ne : ∀ t, t ≠ i →
          nparent (nodes.set i upd) t = nparent nodes t :=
        fun t ht => nparent_set_ne nodes i upd ht
      have hpar_i : nparent (nodes.set i upd) i = some (nodes.length - 1) :=
        nparent_set_self nodes upd hilt
      -- The new node's parent chain never visits `i` (cost argument).
      have hchain_avoid : ∀ k, (parStep nodes)^[k] (nodes.length - 1) ≠ i := by
        intro k hk
        have hle := inv.cost_chain_le k (nodes.length - 1)
        rw [hk, hncost_i, hncost_last] at hle
        linarith
      have hchain_eq : ∀ k, (parStep (nodes.set i upd))^[k] (nodes.length - 1)
          = (parStep nodes)^[k] (nodes.length - 1) := by
        intro k
        induction k with
        | zero => rfl
        | succ k ih =>
          rw [Function.iterate_succ_apply', Function.iterate_succ_apply', ih,
            parStep_set_ne nodes i upd (hchain_avoid k)]
      have hreach_last : ∃ k,
          (parStep (nodes.set i upd))^[k] (nodes.length - 1) = 0 := by
        obtain ⟨k, hk⟩ := inv.reaches (nodes.length - 1) hlast_lt
        exact ⟨k, by rw [hchain_eq k]; exact hk⟩
      have hreach_i : ∃ k, (parStep (nodes.set i upd))^[k] i = 0 := by
        obtain ⟨k, hk⟩ := hreach_last
        refine ⟨k + 1, ?_⟩
        rw [Function.iterate_succ_apply]
        have : parStep (nodes.set i upd) i = nodes.length - 1 := by
          unfold parStep
          rw [hpar_i]
          rfl
        rw [this]
        exact hk
      have hreach_all : ∀ (k : ℕ) (j : ℕ), (parStep nodes)^[k] j = 0 →
          ∃ m, (parStep (nodes.set i upd))^[m] j = 0 := by
        intro k
        induction k with
        | zero =>
          intro j hj
          exact ⟨0, hj⟩
        | succ k ih =>
          intro j hj
          by_cases hji : j = i
          · subst hji
            exact hreach_i
          · rw [Function.iterate_succ_apply] at hj
            obtain ⟨m, hm⟩ := ih (parStep nodes j) hj
            refine ⟨m + 1, ?_⟩
            rw [Function.iterate_succ_apply,
              parStep_set_ne nodes i upd hji]
            exact hm
      refine ⟨⟨?_, ?_, ?_, ?_, ?_, ?_, ?_, ?_⟩, hlen', ?_⟩
      · intro h
        have hz : (nodes.set i upd).length = 0 := by rw [h]; rfl
        rw [hlen'] at hz
        omega
      · rw [hpar_ne 0 (fun h => hi0 h.symm)]
        exact inv.root_parent
      · rw [hcost_ne 0 (fun h => hi0 h.symm)]
        exact inv.root_cost
      · intro j hj hj0
        rw [hlen'] at hj
        by_cases hji : j = i
        · subst hji
          rw [hpar_i]
          simp
        · rw [hpar_ne j hji]
          exact inv.parent_isSome j hj hj0
      · intro j q hq
        rw [hlen']
        by_cases hji : j = i
        · subst hji
          rw [hpar_i] at hq
          have : q = nodes.length - 1 := by
            injection hq with h
            omega
          omega
        · rw [hpar_ne j hji] at hq
          exact inv.parent_lt j q hq
      · intro j q hq
        by_cases hji : j = i
        · subst hji
          rw [hpar_i] at hq
          have hq' : q = nodes.length - 1 := by
            injection hq with h
            omega
          subst hq'
          rw [hcost_i, hcost_ne _ (fun h => hne_last h.symm), hncost_last,
            hpos, hpos, ← hdd]
        · rw [hpar_ne j hji] at hq
          rw [hcost_ne j hji, hpos, hpos]
          by_cases hqi : q = i
          · rw [hqi, hcost_i]
            have hold := inv.cost_ge j q hq
            rw [hqi, hncost_i] at hold
            have hstrict : nn.cost + d < nearNode.cost := hg
            linarith [hold]
          · rw [hcost_ne q hqi]
            exact inv.cost_ge j q hq
      · intro j
        by_cases hji : j = i
        · subst hji
          rw [hcost_i]
          linarith
        · rw [hcost_ne j hji]
          exact inv.cost_nonneg j
      · intro j hj
        rw [hlen'] at hj
        obtain ⟨k, hk⟩ := inv.reaches j hj
        exact hreach_all k j hk
      · rw [List.getElem?_set_ne hne_last]
        exact hlast
    · rw [if_neg hcol]
      exact ⟨inv, rfl, hlast⟩
  · rw [if_neg hg]
    exact ⟨inv, rfl, hlast⟩

/-- `rewireOne_preserves`, restated with the new node's index as a
parameter. -/
theorem rewireOne_preserves' (cfg : Config) {nodes : List Node} {nn : Node}
    {last : ℕ} (inv : TreeInv nodes) (hlen : nodes.length = last + 1)
    (hlast : nodes[last]? = some nn) {i : ℕ} (hi : i < last) :
    TreeInv (rewireOne cfg nn last nodes i)
      ∧ (rewireOne cfg nn last nodes i).length = last + 1
      ∧ (rewireOne cfg nn last nodes i)[last]? = some nn := by
  have h1 : last = nodes.length - 1 := by omega
  subst h1
  have h := rewireOne_preserves cfg inv hlast
    (by omega : i < nodes.length - 1)
  refine ⟨h.1, ?_, h.2.2⟩
  rw [h.2.1]
  omega

/-- Invariant preservation for the whole `rewire` pass (a fold of
`rewireOne` over the near indices). -/
theorem rewire_fold_preserves (cfg : Config) (nn : Node) (last : ℕ) :
    ∀ (inds : List ℕ) (cur : List Node), TreeInv cur →
      cur.length = last + 1 → cur[last]? = some nn →
      (∀ i ∈ inds, i < last) →
      TreeInv (inds.foldl (rewireOne cfg nn last) cur)
        ∧ (inds.foldl (rewireOne cfg nn last) cur).length = last + 1
        ∧ (inds.foldl (rewireOne cfg nn last) cur)[last]? = some nn
  | [], cur, inv, hlen, hlast, _ => ⟨inv, hlen, hlast⟩
  | i :: rest, cur, inv, hlen, hlast, hni => by
    rw [List.foldl_cons]
    have hstep := rewireOne_preserves' cfg inv hlen hlast
      (hni i (List.mem_cons_self i rest))
    exact rewire_fold_preserves cfg nn last rest _ hstep.1 hstep.2.1
      hstep.2.2 (fun j hj => hni j (List.mem_cons_of_mem i hj))

/-- Steering moves a node by exactly `expand_dis`. -/
theorem steer_dist {x y e θ : ℝ} (he : 0 ≤ e) :
    dist2 (x + e * Real.cos θ, y + e * Real.sin θ) (x, y) = e := by
  unfold dist2
  have h1 : (x + e * Real.cos θ - x) ^ 2 + (y + e * Real.sin θ - y) ^ 2
      = e ^ 2 * (Real.sin θ ^ 2 + Real.cos θ ^ 2) := by ring
  rw [h1, Real.sin_sq_add_cos_sq, mul_one, Real.sqrt_sq he]

/-- The tree invariant is preserved by one iteration of the grow loop. -/
theorem treeInv_growOnce (cfg : Config) (Cmat : Fin 3 → Fin 3 → ℝ) (cMin : ℝ)
    (xC : Point) (hexp : 0 ≤ cfg.expandDis) {s : SState}
    (inv : TreeInv s.nodes) (dr : Draw) :
    TreeInv (growOnce cfg Cmat cMin xC s dr).nodes := by
  simp only [growOnce]
  set rnd := informed_sample cfg Cmat s.cBest cMin xC dr with hrnd
  set nind := get_nearest_list_index s.nodes rnd with hnind
  set nearestNode := s.nodes.getD nind ⟨0, 0, 0, none⟩ with hnear
  set θ := atan2 (rnd.2 - nearestNode.y) (rnd.1 - nearestNode.x) with hθ
  set newNode := get_new_node cfg θ nind nearestNode with hnew
  by_cases hcond : collision_check newNode cfg.obstacleList = true
      ∧ check_collision_extend cfg nearestNode θ
        (line_cost nearestNode newNode) = true
  · rw [if_pos hcond]
    set nearInds := find_near_nodes s.nodes newNode with hni
    set newNode2 := choose_parent cfg s.nodes newNode nearInds with hnn2
    set nodes2 := s.nodes ++ [newNode2] with hnodes2
    have hnindlt : nind < s.nodes.length := by
      rw [hnind]
      exact get_nearest_list_index_lt s.nodes inv.nonempty rnd
    have hninds_lt : ∀ i ∈ nearInds, i < s.nodes.length := by
      rw [hni]
      exact find_near_nodes_lt s.nodes newNode
    obtain ⟨p, hp, hplt, hcost⟩ :
        ∃ p, newNode2.parent = some p ∧ p < s.nodes.length ∧
          ncost s.nodes p + dist2 (newNode2.x, newNode2.y) (npos s.nodes p)
            ≤ newNode2.cost := by
      rcases choose_parent_spec cfg s.nodes newNode nearInds with h | ⟨i, hmem, h⟩
      · refine ⟨nind, ?_, hnindlt, ?_⟩
        · rw [hnn2, h, hnew]
          rfl
        · rw [hnn2, h, hnew]
          have hc : ncost s.nodes nind = nearestNode.cost := by
            rw [ncost_lt_eq s.nodes hnindlt, hnear]
          have hpos : npos s.nodes nind = (nearestNode.x, nearestNode.y) := by
            rw [npos_lt_eq s.nodes hnindlt, hnear]
          rw [hc, hpos]
          simp only [get_new_node]
          rw [steer_dist hexp]
      · refine ⟨i, ?_, hninds_lt i hmem, ?_⟩
        · rw [hnn2, h]
        · rw [hnn2, h]
          have hilt : i < s.nodes.length := hninds_lt i hmem
          have hc : ncost s.nodes i
              = (s.nodes.getD i ⟨0, 0, 0, none⟩).cost :=
            ncost_lt_eq s.nodes hilt
          have hpos : npos s.nodes i
              = ((s.nodes.getD i ⟨0, 0, 0, none⟩).x,
                 (s.nodes.getD i ⟨0, 0, 0, none⟩).y) :=
            npos_lt_eq s.nodes hilt
          rw [hc, hpos]
    have hinv2 : TreeInv nodes2 := by
      rw [hnodes2]
      exact treeInv_append inv hp hplt hcost
    have hlen2 : nodes2.length = s.nodes.length + 1 := by
      rw [hnodes2]; simp
    have hlast2 : nodes2[s.nodes.length]? = some newNode2 := by
      rw [hnodes2]
      exact List.getElem?_concat_length s.nodes newNode2
    have hrew := rewire_fold_preserves cfg newNode2 s.nodes.length nearInds
      nodes2 hinv2 hlen2 hlast2 hninds_lt
    have hrweq : rewire cfg nodes2 newNode2 nearInds
        = nearInds.foldl (rewireOne cfg newNode2 s.nodes.length) nodes2 := by
      unfold rewire
      rw [hlen2]
      simp
    have hinv3 : TreeInv (rewire cfg nodes2 newNode2 nearInds) := by
      rw [hrweq]
      exact hrew.1
    by_cases hng : is_near_goal cfg newNode2 = true
    · rw [if_pos hng]
      by_cases hlt : (↑(get_path_len (get_final_course cfg
          (rewire cfg nodes2 newNode2 nearInds)
          ((rewire cfg nodes2 newNode2 nearInds).length - 1))) : WithTop ℝ)
          < s.pathLen
      · rw [if_pos hlt]
        exact hinv3
      · rw [if_neg hlt]
        exact hinv3
    · rw [if_neg hng]
      exact hinv3
  · rw [if_neg hcond]
    exact inv

/-- The tree invariant holds at loop entry. -/
theorem treeInv_initState (cfg : Config) : TreeInv (initState cfg).nodes := by
  refine ⟨by simp [initState], rfl, rfl, ?_, ?_, ?_, ?_, ?_⟩
  · intro j hj hj0
    simp only [initState, List.length_singleton] at hj
    omega
  · intro j p hp
    match j with
    | 0 => cases hp
    | j + 1 =>
      rw [nparent_out _ (by simp [initState])] at hp
      cases hp
  · intro j p hp
    match j with
    | 0 => cases hp
    | j + 1 =>
      rw [nparent_out _ (by simp [initState])] at hp
      cases hp
  · intro j
    match j with
    | 0 => exact le_refl 0
    | j + 1 =>
      rw [ncost_out _ (by simp [initState])]
  · intro j hj
    simp only [initState, List.length_singleton] at hj
    have hj0 : j = 0 := by omega
    subst hj0
    exact ⟨0, rfl⟩

/-- The tree invariant holds at every point of every run. -/
theorem treeInv_searchState (cfg : Config) (Cmat : Fin 3 → Fin 3 → ℝ)
    (hexp : 0 ≤ cfg.expandDis) (draws : List Draw) :
    TreeInv (searchState cfg Cmat draws).nodes := by
  unfold searchState
  have hgen : ∀ (ds : List Draw) (s : SState), TreeInv s.nodes →
      TreeInv (ds.foldl (growOnce cfg Cmat (cMinOf cfg) (xCenterOf cfg)) s).nodes := by
    intro ds
    induction ds with
    | nil => intro s hs; exact hs
    | cons d ds ih =>
      intro s hs
      rw [List.foldl_cons]
      exact ih _ (treeInv_growOnce cfg Cmat (cMinOf cfg) (xCenterOf cfg) hexp hs d)
  exact hgen draws (initState cfg) (treeInv_initState cfg)

/-- If iterating `f` from `j` ever hits `0`, and `f` maps `{0, …, n-1}` into
itself with `0` a fixed point, then `0` is hit within at most `n` steps
(pigeonhole on the visited indices). -/
theorem iterate_hits_bound (f : ℕ → ℕ) (n : ℕ)
    (hlt : ∀ v, v < n → f v < n) {j : ℕ} (hj : j < n)
    (hit : ∃ k, f^[k] j = 0) : ∃ k, k ≤ n ∧ f^[k] j = 0 := by
  have hk0 : f^[Nat.find hit] j = 0 := Nat.find_spec hit
  by_cases hle : Nat.find hit ≤ n
  · exact ⟨Nat.find hit, hle, hk0⟩
  · exfalso
    push_neg at hle
    have hin : ∀ m : ℕ, f^[m] j < n := by
      intro m
      induction m with
      | zero => simpa using hj
      | succ m ih =>
        rw [Function.iterate_succ_apply']
        exact hlt _ ih
    have hcard : Fintype.card (Fin n) < Fintype.card (Fin (n + 1)) := by
      simp
    obtain ⟨a, b, hab, heq⟩ := Fintype.exists_ne_map_eq_of_card_lt
      (fun m : Fin (n + 1) => (⟨f^[m.val] j, hin m.val⟩ : Fin n)) hcard
    have heq' : f^[a.val] j = f^[b.val] j := by
      have := congrArg Fin.val heq
      simpa using this
    rcases Nat.lt_or_ge a.val b.val with hab' | hab'
    · -- hitting time can be shortened by the cycle length, contradiction
      have hble : b.val ≤ Nat.find hit := le_of_lt (lt_of_le_of_lt b.is_le hle)
      have hiter : f^[Nat.find hit - b.val + a.val] j = 0 := by
        have h1 : f^[Nat.find hit - b.val + b.val] j = 0 := by
          rw [Nat.sub_add_cancel hble]
          exact hk0
        rw [Function.iterate_add_apply] at h1
        rw [Function.iterate_add_apply, heq']
        exact h1
      have hless : Nat.find hit - b.val + a.val < Nat.find hit := by omega
      exact Nat.find_min hit hless hiter
    · have hab'' : b.val < a.val := by
        rcases Nat.lt_or_ge b.val a.val with h | h
        · exact h
        · exact absurd (Fin.ext (by omega)) hab
      have hale : a.val ≤ Nat.find hit := le_of_lt (lt_of_le_of_lt a.is_le hle)
      have hiter : f^[Nat.find hit - a.val + b.val] j = 0 := by
        have h1 : f^[Nat.find hit - a.val + a.val] j = 0 := by
          rw [Nat.sub_add_cancel hale]
          exact hk0
        rw [Function.iterate_add_apply, heq'] at h1
        rw [Function.iterate_add_apply]
        exact h1
      have hless : Nat.find hit - a.val + b.val < Nat.find hit := by omega
      exact Nat.find_min hit hless hiter

theorem iterate_fixed_zero {f : ℕ → ℕ} (h : f 0 = 0) :
    ∀ t, f^[t] 0 = 0 := by
  intro t
  induction t with
  | zero => rfl
  | succ t ih =>
    rw [Function.iterate_succ_apply, h]
    exact ih

theorem iterate_cycle_pow {f : ℕ → ℕ} {c j : ℕ} (h : f^[c] j = j) :
    ∀ m, f^[c * m] j = j := by
  intro m
  induction m with
  | zero => rfl
  | succ m ih =>
    rw [Nat.mul_succ, Function.iterate_add_apply, h]
    exact ih

/-- A state on a parent cycle can never reach the root unless it is the
root itself (the root is a fixed point of the chain step). -/
theorem cycle_implies_root {f : ℕ → ℕ} (hf0 : f 0 = 0) {j c k : ℕ}
    (hc : 0 < c) (hcyc : f^[c] j = j) (hk : f^[k] j = 0) : j = 0 := by
  have hge : k ≤ c * k + c := by
    calc k ≤ c * k := Nat.le_mul_of_pos_left k hc
    _ ≤ c * k + c := Nat.le_add_right _ _
  have h1 : f^[c * (k + 1)] j = j := iterate_cycle_pow hcyc (k + 1)
  have h2 : c * (k + 1) = (c * (k + 1) - k) + k := by
    have : k ≤ c * (k + 1) := by
      calc k ≤ c * k + c := hge
      _ = c * (k + 1) := by ring
    omega
  rw [h2, Function.iterate_add_apply, hk, iterate_fixed_zero hf0] at h1
  exact h1.symm

/-- The concrete configuration used by the executable runs below:
`start = (0, 0)`, `goal = (8/5, 0)`, no obstacles, bounds `[-2, 15]`,
step length `1/2`, goal-bias `10`, iteration budget `4`. -/
def cfgRun : Config :=
  init (0, 0) (8 / 5, 0) [] (-2, 15) (1 / 2) 10 4

/-- The per-iteration oracle used by the executable runs below: the
`randint(0, 100)` draw is 50 (so the sampler goes uniform) and the uniform
point is `(10, 0)`. -/
def drawRun : Draw :=
  ⟨50, 10, 0, 0, 0⟩

/-- C4: at every point in a run (i.e. after every prefix of the iteration
oracles), following parent handles from any tree node reaches the root —
the unique node with a null parent, at index 0 — within at most the current
tree size many hops, and no parent cycle through a non-root node exists. -/
theorem parent_chains_reach_root (cfg : Config) (Cmat : Fin 3 → Fin 3 → ℝ)
    (draws : List Draw) (hexp : 0 ≤ cfg.expandDis) :
    ∀ j, j < (searchState cfg Cmat draws).nodes.length →
      (nparent (searchState cfg Cmat draws).nodes j = none ↔ j = 0)
      ∧ (∃ k, k ≤ (searchState cfg Cmat draws).nodes.length
          ∧ (parStep (searchState cfg Cmat draws).nodes)^[k] j = 0)
      ∧ (∀ c, 0 < c →
          (parStep (searchState cfg Cmat draws).nodes)^[c] j = j → j = 0) := by
  intro j hj
  have inv := treeInv_searchState cfg Cmat hexp draws
  refine ⟨⟨?_, ?_⟩, ?_, ?_⟩
  · intro hn
    by_contra hj0
    exact inv.parent_isSome j hj hj0 hn
  · intro h
    subst h
    exact inv.root_parent
  · exact iterate_hits_bound _ _ (fun v hv => inv.parStep_lt hv) hj
      (inv.reaches j hj)
  · intro c hc hcyc
    obtain ⟨k, hk⟩ := inv.reaches j hj
    exact cycle_implies_root inv.parStep_zero hc hcyc hk

/-- Witness for C4 at a concrete configuration and run. -/
theorem parent_chains_reach_root_witness :
    (0 : ℝ) ≤ cfgRun.expandDis ∧
      ∃ k, k ≤ (searchState cfgRun (fun _ _ => 0) []).nodes.length
        ∧ (parStep (searchState cfgRun (fun _ _ => 0) []).nodes)^[k] 0 = 0 := by
  have hexp : (0 : ℝ) ≤ cfgRun.expandDis := by
    norm_num [cfgRun, init]
  have hlen : (searchState cfgRun (fun _ _ => 0) []).nodes.length = 1 := rfl
  have h := parent_chains_reach_root cfgRun (fun _ _ => 0) [] hexp 0
    (by rw [hlen]; norm_num)
  exact ⟨hexp, h.2.1⟩

/-! ### C8: the goal-bias fraction of `sample_free_space` -/

/-- `sample_free_space` returns the uniform draw exactly when the
`randint(0, 100)` outcome exceeds the goal-sample rate, and the goal
position otherwise. -/
theorem sample_free_space_eq (cfg : Config) (dr : Draw) :
    sample_free_space cfg dr
      = if freeSpaceTakesUniform cfg.goalSampleRate dr.k then (dr.u1, dr.u2)
        else (cfg.goal.1, cfg.goal.2) :=
  rfl

theorem countP_range_gt (g : ℕ) :
    ∀ n, (List.range n).countP (fun k => freeSpaceTakesUniform g k)
      = n - min n (g + 1)
  | 0 => rfl
  | n + 1 => by
    rw [List.range_succ, List.countP_append, countP_range_gt g n]
    by_cases h : g < n
    · have h1 : List.countP (fun k => freeSpaceTakesUniform g k) [n] = 1 := by
        simp [List.countP_cons, freeSpaceTakesUniform, h]
      rw [h1]
      omega
    · have h1 : List.countP (fun k => freeSpaceTakesUniform g k) [n] = 0 := by
        simp [List.countP_cons, freeSpaceTakesUniform, h]
      rw [h1]
      omega

/-- C8 counterexample: at the default goal-sample rate 10, exactly 90 of the
101 equally likely `randint(0, 100)` outcomes yield a uniform point, so the
fraction of uniform outcomes is 90/101, not `(100 − 10)/100 = 90/100` as the
claim states. -/
theorem sample_free_space_fraction_counterexample :
    uniformOutcomeCount 10 = 90
      ∧ (uniformOutcomeCount 10 : ℚ) / 101 ≠ ((100 : ℚ) - 10) / 100 := by
  have h : uniformOutcomeCount 10 = 90 := by decide
  refine ⟨h, ?_⟩
  rw [h]
  norm_num

/-- C8 (amended): over the 101 equally likely outcomes of
`random.randint(0, 100)`, `sample_free_space` draws a uniform point for
exactly `100 − goalSampleRate` of them — a fraction of
`(100 − goalSampleRate)/101`, not `/100` — and otherwise returns the goal
exactly. -/
theorem sample_free_space_uniform_fraction (g : ℕ) (hg : g ≤ 100) :
    uniformOutcomeCount g = 100 - g
      ∧ (uniformOutcomeCount g : ℚ) / 101 = ((100 : ℚ) - g) / 101 := by
  have h := countP_range_gt g 101
  have h1 : uniformOutcomeCount g = 100 - g := by
    rw [uniformOutcomeCount, h]
    omega
  refine ⟨h1, ?_⟩
  rw [h1]
  have h2 : ((100 - g : ℕ) : ℚ) = (100 : ℚ) - g := by
    have : (g : ℚ) ≤ 100 := by exact_mod_cast hg
    push_cast [hg]
    ring
  rw [h2]

/-- Witness for the amended C8 at the default rate. -/
theorem sample_free_space_uniform_fraction_witness :
    10 ≤ 100 ∧ uniformOutcomeCount 10 = 100 - 10 :=
  ⟨by norm_num, (sample_free_space_uniform_fraction 10 (by norm_num)).1⟩

/-! ### C9: the subdivided segment collision test -/

theorem collision_check_congr {a b : Node} (hx : a.x = b.x) (hy : a.y = b.y) :
    ∀ obs, collision_check a obs = collision_check b obs
  | [] => rfl
  | (ox, oy, sz) :: rest => by
    rw [collision_check, collision_check, hx, hy,
      collision_check_congr hx hy rest]

theorem collisionExtendLoop_iff (cfg : Config) (θ : ℝ) :
    ∀ (n : ℕ) (x y : ℝ),
      (collisionExtendLoop cfg θ n (x, y) = true ↔
        ∀ k : ℕ, 1 ≤ k → k ≤ n →
          collision_check ⟨x + k * (cfg.expandDis * Real.cos θ),
            y + k * (cfg.expandDis * Real.sin θ), 0, none⟩
            cfg.obstacleList = true)
  | 0, x, y => by
    simp only [collisionExtendLoop]
    constructor
    · intro _ k hk1 hk2
      omega
    · intro _
      trivial
  | n + 1, x, y => by
    rw [collisionExtendLoop]
    by_cases h1 : collision_check ⟨x + cfg.expandDis * Real.cos θ,
        y + cfg.expandDis * Real.sin θ, 0, none⟩ cfg.obstacleList = true
    · rw [if_pos h1]
      rw [collisionExtendLoop_iff cfg θ n
        (x + cfg.expandDis * Real.cos θ) (y + cfg.expandDis * Real.sin θ)]
      constructor
      · intro h k hk1 hk2
        match k, hk1 with
        | 1, _ =>
          have he : collision_check ⟨x + (1 : ℕ) * (cfg.expandDis * Real.cos θ),
              y + (1 : ℕ) * (cfg.expandDis * Real.sin θ), 0, none⟩
              cfg.obstacleList
              = collision_check ⟨x + cfg.expandDis * Real.cos θ,
                y + cfg.expandDis * Real.sin θ, 0, none⟩ cfg.obstacleList :=
            collision_check_congr (by push_cast; ring) (by push_cast; ring) _
          rw [he]
          exact h1
        | k + 2, _ =>
          have hk2' : k + 1 ≤ n := by omega
          have hh := h (k + 1) (by omega) hk2'
          have he : collision_check
              ⟨x + cfg.expandDis * Real.cos θ
                + (k + 1 : ℕ) * (cfg.expandDis * Real.cos θ),
               y + cfg.expandDis * Real.sin θ
                + (k + 1 : ℕ) * (cfg.expandDis * Real.sin θ), 0, none⟩
              cfg.obstacleList
              = collision_check ⟨x + (k + 2 : ℕ) * (cfg.expandDis * Real.cos θ),
                y + (k + 2 : ℕ) * (cfg.expandDis * Real.sin θ), 0, none⟩
              cfg.obstacleList :=
            collision_check_congr (by push_cast; ring) (by push_cast; ring) _
          rw [← he]
          exact hh
      · intro h k hk1 hk2
        have hh := h (k + 1) (by omega) (by omega)
        have he : collision_check
            ⟨x + (k + 1 : ℕ) * (cfg.expandDis * Real.cos θ),
             y + (k + 1 : ℕ) * (cfg.expandDis * Real.sin θ), 0, none⟩
            cfg.obstacleList
            = collision_check
            ⟨x + cfg.expandDis * Real.cos θ
              + k * (cfg.expandDis * Real.cos θ),
             y + cfg.expandDis * Real.sin θ
              + k * (cfg.expandDis * Real.sin θ), 0, none⟩
            cfg.obstacleList :=
          collision_check_congr (by push_cast; ring) (by push_cast; ring) _
        rw [← he]
        exact hh
    · rw [if_neg h1]
      constructor
      · intro h
        cases h
      · intro habs
        exfalso
        refine h1 ?_
        have hh := habs 1 (by omega) (by omega)
        have he : collision_check ⟨x + (1 : ℕ) * (cfg.expandDis * Real.cos θ),
            y + (1 : ℕ) * (cfg.expandDis * Real.sin θ), 0, none⟩
            cfg.obstacleList
            = collision_check ⟨x + cfg.expandDis * Real.cos θ,
              y + cfg.expandDis * Real.sin θ, 0, none⟩ cfg.obstacleList :=
          collision_check_congr (by push_cast; ring) (by push_cast; ring) _
        rw [← he]
        exact hh

/-- C9: the segment test with direction `θ` and length `d` point-tests
exactly the `⌊d / stepLength⌋` positions at offsets `stepLength,
2·stepLength, …` along the direction (succeeding iff all of them are
collision-free, failing at the first collision); in particular any edge with
`0 ≤ d < stepLength` performs zero sub-checks and passes for every obstacle
set. -/
theorem check_collision_extend_spec (cfg : Config) (nearNode : Node)
    (θ d : ℝ) (hstep : 0 < cfg.expandDis) :
    (check_collision_extend cfg nearNode θ d = true ↔
      ∀ k : ℕ, 1 ≤ k → k ≤ Int.toNat ⌊d / cfg.expandDis⌋ →
        collision_check ⟨nearNode.x + k * (cfg.expandDis * Real.cos θ),
          nearNode.y + k * (cfg.expandDis * Real.sin θ), 0, none⟩
          cfg.obstacleList = true)
    ∧ (0 ≤ d → d < cfg.expandDis →
        check_collision_extend cfg nearNode θ d = true) := by
  constructor
  · exact collisionExtendLoop_iff cfg θ (Int.toNat ⌊d / cfg.expandDis⌋)
      nearNode.x nearNode.y
  · intro hd0 hdlt
    have hfl : ⌊d / cfg.expandDis⌋ = 0 := by
      rw [Int.floor_eq_zero_iff]
      constructor
      · exact div_nonneg hd0 (le_of_lt hstep)
      · rw [div_lt_one hstep]
        exact hdlt
    unfold check_collision_extend
    rw [hfl]
    rfl

/-- Witness for C9: with unit step length, an edge of length 1/2 performs no
sub-checks and is accepted even though its surroundings are fully covered by
an obstacle. -/
theorem check_collision_extend_spec_witness :
    (0 : ℝ) < (init (0, 0) (1, 0) [(0, 0, 10)] (-2, 15) 1 10 1).expandDis
      ∧ check_collision_extend (init (0, 0) (1, 0) [(0, 0, 10)] (-2, 15) 1 10 1)
        ⟨0, 0, 0, none⟩ 0 (1 / 2) = true := by
  have hstep : (0 : ℝ) < (init (0, 0) (1, 0) [(0, 0, 10)]
      (-2, 15) 1 10 1).expandDis := by
    norm_num [init]
  refine ⟨hstep, ?_⟩
  exact (check_collision_extend_spec (init (0, 0) (1, 0) [(0, 0, 10)]
    (-2, 15) 1 10 1) ⟨0, 0, 0, none⟩ 0 (1 / 2) hstep).2
    (by norm_num) (by norm_num [init])

/-! ### C5: no construction-time validation -/

/-- The degenerate configuration whose start coincides with its goal. -/
def cfgDegenerate : Config :=
  init (0, 0) (0, 0) [] (-2, 15) (1 / 2) 10 200

/-- C5 counterexample: the constructor accepts the degenerate configuration
`start = goal` without reporting any error (it has no failure path at all and
stores the fields verbatim), and the division by zero the claim says is
prevented then actually occurs during search setup. -/
theorem init_no_validation_counterexample :
    cfgDegenerate.start = cfgDegenerate.goal
      ∧ cfgDegenerate.expandDis = 1 / 2
      ∧ searchSetup cfgDegenerate
        = Except.error "ZeroDivisionError: float division by zero" := by
  refine ⟨rfl, rfl, ?_⟩
  have hc : cMinOf cfgDegenerate = 0 := by
    unfold cMinOf cfgDegenerate init dist2
    norm_num
  unfold searchSetup
  rw [hc]
  simp

/-- C5 (amended): construction performs no validation whatsoever — every
configuration, including a coincident start/goal, a non-positive step length
and inverted sampling bounds, is stored verbatim — and whenever the start
coincides with the goal the search itself fails with a `ZeroDivisionError`
while computing the ellipse axis direction. -/
theorem init_stores_verbatim (start goal : Point)
    (obstacleList : List (ℝ × ℝ × ℝ)) (randArea : ℝ × ℝ) (e : ℝ) (g m : ℕ) :
    (init start goal obstacleList randArea e g m).start = start
    ∧ (init start goal obstacleList randArea e g m).goal = goal
    ∧ (init start goal obstacleList randArea e g m).expandDis = e
    ∧ (init start goal obstacleList randArea e g m).minRand = randArea.1
    ∧ (init start goal obstacleList randArea e g m).maxRand = randArea.2
    ∧ (start = goal →
        searchSetup (init start goal obstacleList randArea e g m)
          = Except.error "ZeroDivisionError: float division by zero") := by
  refine ⟨rfl, rfl, rfl, rfl, rfl, ?_⟩
  intro h
  have hc : cMinOf (init start goal obstacleList randArea e g m) = 0 := by
    unfold cMinOf init dist2
    rw [h]
    norm_num
  unfold searchSetup
  rw [hc]
  simp

/-- Witness for the amended C5. -/
theorem init_stores_verbatim_witness :
    searchSetup (init (2, 3) (2, 3) [] (-2, 15) (1 / 2) 10 200)
      = Except.error "ZeroDivisionError: float division by zero" :=
  (init_stores_verbatim (2, 3) (2, 3) [] (-2, 15) (1 / 2) 10 200).2.2.2.2.2 rfl

/-! ### Shape of the per-iteration state update -/

/-- `cBest` is only ever overwritten with the length of an extracted
candidate path. -/
theorem growOnce_cBest (cfg : Config) (Cmat : Fin 3 → Fin 3 → ℝ) (cMin : ℝ)
    (xC : Point) (s : SState) (dr : Draw) :
    (growOnce cfg Cmat cMin xC s dr).cBest = s.cBest ∨
    ∃ nodes li, (growOnce cfg Cmat cMin xC s dr).cBest
      = ((get_path_len (get_final_course cfg nodes li) : ℝ) : WithTop ℝ) := by
  simp only [growOnce]
  split
  · split
    · split
      · right
        exact ⟨_, _, rfl⟩
      · left
        rfl
    · left
      rfl
  · left
    rfl

/-- `path` is only ever overwritten with an extracted candidate path. -/
theorem growOnce_path (cfg : Config) (Cmat : Fin 3 → Fin 3 → ℝ) (cMin : ℝ)
    (xC : Point) (s : SState) (dr : Draw) :
    (growOnce cfg Cmat cMin xC s dr).path = s.path ∨
    ∃ nodes li, (growOnce cfg Cmat cMin xC s dr).path
      = some (get_final_course cfg nodes li) := by
  simp only [growOnce]
  split
  · split
    · split
      · right
        exact ⟨_, _, rfl⟩
      · left
        rfl
    · left
      rfl
  · left
    rfl

/-- The loop never updates `pathLen`: its comparison variable keeps its
initial value for the whole run. -/
theorem growOnce_pathLen (cfg : Config) (Cmat : Fin 3 → Fin 3 → ℝ) (cMin : ℝ)
    (xC : Point) (s : SState) (dr : Draw) :
    (growOnce cfg Cmat cMin xC s dr).pathLen = s.pathLen := by
  simp only [growOnce]
  split
  · split
    · split
      · rfl
      · rfl
    · rfl
  · rfl

/-- `pathLen` stays `float('inf')` for the entire run: the guard of the
best-path update compares each candidate against infinity, never against the
recorded best. -/
theorem searchState_pathLen (cfg : Config) (Cmat : Fin 3 → Fin 3 → ℝ)
    (draws : List Draw) : (searchState cfg Cmat draws).pathLen = ⊤ := by
  unfold searchState
  have haux : ∀ (ds : List Draw) (s : SState), s.pathLen = ⊤ →
      (ds.foldl (growOnce cfg Cmat (cMinOf cfg) (xCenterOf cfg)) s).pathLen
        = ⊤ := by
    intro ds
    induction ds with
    | nil => exact fun s h => h
    | cons d ds ih =>
      intro s hs
      rw [List.foldl_cons]
      exact ih _ (by rw [growOnce_pathLen]; exact hs)
  exact haux draws (initState cfg) rfl

/-! ### C10: the recorded best cost dominates the straight-line cost -/

/-- C10: whenever a best cost has been recorded (so the sampler is in
informed mode), it is the length of an extracted goal-to-start path and
hence at least `cMin`; consequently the argument
`cBest² − cMin²` of the square root in `informed_sample`'s minor semi-axis
is nonnegative. -/
theorem informed_sample_axis_nonneg (cfg : Config) (Cmat : Fin 3 → Fin 3 → ℝ)
    (draws : List Draw) (hsg : cfg.start ≠ cfg.goal) :
    ∀ c : ℝ, (searchState cfg Cmat draws).cBest = some c →
      cMinOf cfg ≤ c ∧ 0 ≤ informedAxisArg c (cMinOf cfg) := by
  have hmin0 : 0 ≤ cMinOf cfg := dist2_nonneg _ _
  have haux : ∀ (ds : List Draw) (s : SState),
      (∀ c : ℝ, s.cBest = some c → cMinOf cfg ≤ c) →
      ∀ c : ℝ,
        (ds.foldl (growOnce cfg Cmat (cMinOf cfg) (xCenterOf cfg)) s).cBest
          = some c → cMinOf cfg ≤ c := by
    intro ds
    induction ds with
    | nil => exact fun s h => h
    | cons d ds ih =>
      intro s hs
      rw [List.foldl_cons]
      apply ih
      intro c hc
      rcases growOnce_cBest cfg Cmat (cMinOf cfg) (xCenterOf cfg) s d
        with h | ⟨nodes, li, h⟩
      · rw [h] at hc
        exact hs c hc
      · rw [h] at hc
        have hcc : get_path_len (get_final_course cfg nodes li) = c :=
          WithTop.coe_inj.1 hc
        rw [← hcc]
        exact get_final_course_len_ge_cMin cfg nodes li
  intro c hc
  have h1 : cMinOf cfg ≤ c := by
    refine haux draws (initState cfg) ?_ c hc
    intro c' hc'
    exact absurd hc' (by simp [initState])
  refine ⟨h1, ?_⟩
  unfold informedAxisArg
  have h2 : cMinOf cfg ^ 2 ≤ c ^ 2 := pow_le_pow_left₀ hmin0 h1 2
  linarith

/-! ### C2 and C3: what rewiring does to costs and parent handles -/

/-- The exact cost equation of the spec: every non-root node's cost equals
its parent's cost plus the connecting Euclidean distance. -/
def costInvariant (nodes : List Node) : Prop :=
  ∀ j p, j < nodes.length → nparent nodes j = some p →
    ncost nodes j = ncost nodes p + dist2 (npos nodes j) (npos nodes p)

/-- The relaxed cost inequality that rewiring actually maintains. -/
def costGeInvariant (nodes : List Node) : Prop :=
  ∀ j p, j < nodes.length → nparent nodes j = some p →
    ncost nodes p + dist2 (npos nodes j) (npos nodes p) ≤ ncost nodes j

theorem collisionExtendLoop_nil {cfg : Config} (h : cfg.obstacleList = [])
    (θ : ℝ) : ∀ (n : ℕ) (x y : ℝ), collisionExtendLoop cfg θ n (x, y) = true
  | 0, _, _ => rfl
  | n + 1, x, y => by
    rw [collisionExtendLoop]
    have hcc : collision_check ⟨x + cfg.expandDis * Real.cos θ,
        y + cfg.expandDis * Real.sin θ, 0, none⟩ cfg.obstacleList = true := by
      rw [h]
      rfl
    rw [if_pos hcc]
    exact collisionExtendLoop_nil h θ n _ _

theorem check_collision_extend_nil {cfg : Config} (h : cfg.obstacleList = [])
    (nd : Node) (θ d : ℝ) : check_collision_extend cfg nd θ d = true := by
  unfold check_collision_extend
  exact collisionExtendLoop_nil h θ _ _ _

/-- A single `rewire` pass either leaves the list unchanged or re-parents
the near node `i` onto index `last` with cost exactly
`newNode.cost + distance`; the re-parenting only happens under a strict cost
improvement. -/
theorem rewireOne_cases (cfg : Config) (nn : Node) (last : ℕ)
    (nodes : List Node) (i : ℕ) :
    rewireOne cfg nn last nodes i = nodes ∨
    (rewireOne cfg nn last nodes i
      = nodes.set i
          { x := (nodes.getD i ⟨0, 0, 0, none⟩).x
            y := (nodes.getD i ⟨0, 0, 0, none⟩).y
            cost := nn.cost + Real.sqrt
              (((nodes.getD i ⟨0, 0, 0, none⟩).x - nn.x) ^ 2
                + ((nodes.getD i ⟨0, 0, 0, none⟩).y - nn.y) ^ 2)
            parent := some last }
      ∧ (nodes.getD i ⟨0, 0, 0, none⟩).cost
          > nn.cost + Real.sqrt
            (((nodes.getD i ⟨0, 0, 0, none⟩).x - nn.x) ^ 2
              + ((nodes.getD i ⟨0, 0, 0, none⟩).y - nn.y) ^ 2)) := by
  simp only [rewireOne]
  split
  · split
    · next hg _ =>
      right
      exact ⟨rfl, hg⟩
    · left
      rfl
  · left
    rfl

theorem rewireOne_length (cfg : Config) (nn : Node) (last : ℕ)
    (nodes : List Node) (i : ℕ) :
    (rewireOne cfg nn last nodes i).length = nodes.length := by
  rcases rewireOne_cases cfg nn last nodes i with h | ⟨h, _⟩
  · rw [h]
  · rw [h]
    exact List.length_set nodes _ _

/-- A single rewire pass changes no parent handle except possibly to point
at index `last`. -/
theorem rewireOne_parent (cfg : Config) (nn : Node) (last : ℕ)
    (nodes : List Node) (i j : ℕ) :
    nparent (rewireOne cfg nn last nodes i) j = nparent nodes j
    ∨ nparent (rewireOne cfg nn last nodes i) j = some last := by
  rcases rewireOne_cases cfg nn last nodes i with h | ⟨h, _⟩
  · rw [h]
    exact Or.inl rfl
  · rw [h]
    by_cases hji : j = i
    · subst hji
      by_cases hjlt : j < nodes.length
      · right
        rw [nparent_set_self nodes _ hjlt]
      · left
        rw [List.set_eq_of_length_le (by omega)]
    · left
      exact nparent_set_ne nodes i _ hji

/-- The parent handles of a whole `rewire` pass: each is either unchanged or
points at the newly inserted node's index. -/
theorem rewire_parent (cfg : Config) (nodes : List Node) (nn : Node)
    (nearInds : List ℕ) (j : ℕ) :
    nparent (rewire cfg nodes nn nearInds) j = nparent nodes j
    ∨ nparent (rewire cfg nodes nn nearInds) j = some (nodes.length - 1) := by
  unfold rewire
  have haux : ∀ (inds : List ℕ) (cur : List Node),
      (nparent cur j = nparent nodes j
        ∨ nparent cur j = some (nodes.length - 1)) →
      (nparent (inds.foldl (rewireOne cfg nn (nodes.length - 1)) cur) j
          = nparent nodes j
        ∨ nparent (inds.foldl (rewireOne cfg nn (nodes.length - 1)) cur) j
          = some (nodes.length - 1)) := by
    intro inds
    induction inds with
    | nil => exact fun cur h => h
    | cons i rest ih =>
      intro cur hcur
      rw [List.foldl_cons]
      apply ih
      rcases rewireOne_parent cfg nn (nodes.length - 1) cur i j with h | h
      · rw [h]
        exact hcur
      · exact Or.inr h
  exact haux nearInds nodes (Or.inl rfl)

theorem nparent_some_lt {nodes : List Node} {j p : ℕ}
    (h : nparent nodes j = some p) : j < nodes.length := by
  by_contra hge
  rw [nparent_out nodes (by omega)] at h
  cases h

/-- C2 (amended): a rewire pass preserves the relaxed invariant
`cost ≥ cost(parent) + distance` for every node, and re-establishes the
exact equation for every node it re-parents onto the newly inserted node;
the exact equation is *not* re-established for descendants of rewired nodes
(see the counterexample), which is why only the inequality survives. -/
theorem rewire_reestablishes_for_rewired (cfg : Config) {nodes : List Node}
    {nn : Node} (inv : TreeInv nodes)
    (hlast : nodes[nodes.length - 1]? = some nn)
    (hfresh : ∀ j, j < nodes.length →
      nparent nodes j ≠ some (nodes.length - 1))
    (nearInds : List ℕ) (hni : ∀ i ∈ nearInds, i < nodes.length - 1) :
    costGeInvariant (rewire cfg nodes nn nearInds)
    ∧ ∀ j, j < nodes.length →
        nparent (rewire cfg nodes nn nearInds) j = some (nodes.length - 1) →
        ncost (rewire cfg nodes nn nearInds) j
          = nn.cost + dist2 (npos nodes j) (nn.x, nn.y) := by
  constructor
  · have hlen : nodes.length = (nodes.length - 1) + 1 := by
      have := inv.length_pos
      omega
    have hfold := rewire_fold_preserves cfg nn (nodes.length - 1) nearInds
      nodes inv hlen hlast hni
    intro j p hj hp
    exact hfold.1.cost_ge j p hp
  · unfold rewire
    have haux : ∀ (inds : List ℕ) (cur : List Node),
        (∀ i ∈ inds, i < nodes.length - 1) →
        cur.length = nodes.length →
        (∀ t, t < nodes.length → npos cur t = npos nodes t) →
        (∀ j, j < nodes.length →
          nparent cur j = some (nodes.length - 1) →
          ncost cur j = nn.cost + dist2 (npos nodes j) (nn.x, nn.y)) →
        ∀ j, j < nodes.length →
          nparent (inds.foldl (rewireOne cfg nn (nodes.length - 1)) cur) j
            = some (nodes.length - 1) →
          ncost (inds.foldl (rewireOne cfg nn (nodes.length - 1)) cur) j
            = nn.cost + dist2 (npos nodes j) (nn.x, nn.y) := by
      intro inds
      induction inds with
      | nil => exact fun cur _ _ _ hq => hq
      | cons i rest ih =>
        intro cur hb hlen hpos hq
        rw [List.foldl_cons]
        have hib : i < nodes.length - 1 := hb i (List.mem_cons_self i rest)
        have hilt : i < cur.length := by omega
        rcases rewireOne_cases cfg nn (nodes.length - 1) cur i
          with hcase | ⟨hcase, _⟩
        · rw [hcase]
          exact ih _ (fun t ht => hb t (List.mem_cons_of_mem i ht)) hlen
            hpos hq
        · rw [hcase]
          refine ih _ (fun t ht => hb t (List.mem_cons_of_mem i ht)) ?_ ?_ ?_
          · rw [List.length_set]
            exact hlen
          · intro t ht
            by_cases hti : t = i
            · subst hti
              rw [npos_set_self cur _ hilt]
              rw [← hpos t ht, npos_lt_eq cur hilt]
            · rw [npos_set_ne cur i _ hti]
              exact hpos t ht
          · intro j hjlt hjp
            by_cases hji : j = i
            · subst hji
              rw [ncost_set_self cur _ hilt]
              have hdd : dist2 (npos nodes j) (nn.x, nn.y)
                  = Real.sqrt (((cur.getD j ⟨0, 0, 0, none⟩).x - nn.x) ^ 2
                    + ((cur.getD j ⟨0, 0, 0, none⟩).y - nn.y) ^ 2) := by
                rw [← hpos j hjlt, npos_lt_eq cur hilt]
                rfl
              rw [hdd]
            · rw [nparent_set_ne cur i _ hji] at hjp
              rw [ncost_set_ne cur i _ hji]
              exact hq j hjlt hjp
    intro j hj
    refine haux nearInds nodes hni rfl (fun _ _ => rfl) ?_ j hj
    intro j' hj' hcontra
    exact absurd hcontra (hfresh j' hj')

/-- The obstacle-free configuration used for the rewire counterexamples. -/
def cfgRw : Config :=
  init (0, 0) (100, 0) [] (-2, 50) (1 / 2) 10 200

/-- The tree (after the new node's insertion) on which the rewire
counterexamples run: root at the origin; a detour node `A = (3,4)`; a node
`P = (0,8)` reached through `A` at cost 10; a faraway child `Q = (0,40)` of
`P` at cost 42; and the newly inserted node `N = (0,5)` at cost 5. -/
def nodesC2all : List Node :=
  [⟨0, 0, 0, none⟩, ⟨3, 4, 5, some 0⟩, ⟨0, 8, 10, some 1⟩,
   ⟨0, 40, 42, some 2⟩, ⟨0, 5, 5, some 0⟩]

/-- The tree before the new node's insertion. -/
def nodesC2pre : List Node :=
  [⟨0, 0, 0, none⟩, ⟨3, 4, 5, some 0⟩, ⟨0, 8, 10, some 1⟩,
   ⟨0, 40, 42, some 2⟩]

/-- The newly inserted node of the rewire counterexamples. -/
def nnC2 : Node :=
  ⟨0, 5, 5, some 0⟩

/-- The tree after the rewire pass: `P` has been re-parented onto `N`
(index 4, a forward reference) at cost 8, while its child `Q` keeps its now
stale cost 42. -/
def nodesC2post : List Node :=
  [⟨0, 0, 0, none⟩, ⟨3, 4, 5, some 0⟩, ⟨0, 8, 8, some 4⟩,
   ⟨0, 40, 42, some 2⟩, ⟨0, 5, 5, some 0⟩]

theorem dist_A_root : dist2 ((3 : ℝ), (4 : ℝ)) (0, 0) = 5 := by
  unfold dist2
  exact sqrt_eval (by norm_num) (by norm_num)

theorem dist_P_A : dist2 ((0 : ℝ), (8 : ℝ)) (3, 4) = 5 := by
  unfold dist2
  exact sqrt_eval (by norm_num) (by norm_num)

theorem dist_Q_P : dist2 ((0 : ℝ), (40 : ℝ)) (0, 8) = 32 := by
  unfold dist2
  exact sqrt_eval (by norm_num) (by norm_num)

theorem dist_N_root : dist2 ((0 : ℝ), (5 : ℝ)) (0, 0) = 5 := by
  unfold dist2
  exact sqrt_eval (by norm_num) (by norm_num)

/-- The exact cost equation holds everywhere on the pre-rewire tree. -/
theorem costInvariantC2 : costInvariant nodesC2all := by
  intro j p hj hp
  have hlen : nodesC2all.length = 5 := rfl
  rw [hlen] at hj
  interval_cases j
  · exact absurd hp (by rw [show nparent nodesC2all 0 = none from rfl]; simp)
  · rw [show nparent nodesC2all 1 = some 0 from rfl] at hp
    injection hp with hp'
    subst hp'
    show (5 : ℝ) = 0 + dist2 (3, 4) (0, 0)
    rw [dist_A_root]
    norm_num
  · rw [show nparent nodesC2all 2 = some 1 from rfl] at hp
    injection hp with hp'
    subst hp'
    show (10 : ℝ) = 5 + dist2 (0, 8) (3, 4)
    rw [dist_P_A]
    norm_num
  · rw [show nparent nodesC2all 3 = some 2 from rfl] at hp
    injection hp with hp'
    subst hp'
    show (42 : ℝ) = 10 + dist2 (0, 40) (0, 8)
    rw [dist_Q_P]
    norm_num
  · rw [show nparent nodesC2all 4 = some 0 from rfl] at hp
    injection hp with hp'
    subst hp'
    show (5 : ℝ) = 0 + dist2 (0, 5) (0, 0)
    rw [dist_N_root]
    norm_num

/-- The full tree invariant holds on the pre-rewire tree. -/
theorem treeInvC2 : TreeInv nodesC2all := by
  have hlen : nodesC2all.length = 5 := rfl
  refine ⟨by simp [nodesC2all], rfl, rfl, ?_, ?_, ?_, ?_, ?_⟩
  · intro j hj hj0
    rw [hlen] at hj
    interval_cases j
    · exact absurd rfl hj0
    · rw [show nparent nodesC2all 1 = some 0 from rfl]; simp
    · rw [show nparent nodesC2all 2 = some 1 from rfl]; simp
    · rw [show nparent nodesC2all 3 = some 2 from rfl]; simp
    · rw [show nparent nodesC2all 4 = some 0 from rfl]; simp
  · intro j p hp
    have hj := nparent_some_lt hp
    rw [hlen] at hj
    rw [hlen]
    interval_cases j
    · rw [show nparent nodesC2all 0 = none from rfl] at hp; cases hp
    · rw [show nparent nodesC2all 1 = some 0 from rfl] at hp
      injection hp with hp'; omega
    · rw [show nparent nodesC2all 2 = some 1 from rfl] at hp
      injection hp with hp'; omega
    · rw [show nparent nodesC2all 3 = some 2 from rfl] at hp
      injection hp with hp'; omega
    · rw [show nparent nodesC2all 4 = some 0 from rfl] at hp
      injection hp with hp'; omega
  · intro j p hp
    have hj := nparent_some_lt hp
    exact le_of_eq (costInvariantC2 j p hj hp).symm
  · intro j
    by_cases hj : j < nodesC2all.length
    · rw [hlen] at hj
      interval_cases j
      · exact le_refl 0
      · show (0 : ℝ) ≤ 5; norm_num
      · show (0 : ℝ) ≤ 10; norm_num
      · show (0 : ℝ) ≤ 42; norm_num
      · show (0 : ℝ) ≤ 5; norm_num
    · rw [ncost_out nodesC2all (by omega)]
  · intro j hj
    rw [hlen] at hj
    interval_cases j
    · exact ⟨0, rfl⟩
    · exact ⟨1, rfl⟩
    · exact ⟨2, rfl⟩
    · exact ⟨3, rfl⟩
    · exact ⟨1, rfl⟩

theorem log_four_gt_one : (1 : ℝ) < Real.log 4 := by
  rw [Real.lt_log_iff_exp_lt (by norm_num : (0 : ℝ) < 4)]
  calc Real.exp 1 < 2.7182818286 := Real.exp_one_lt_d9
  _ < 4 := by norm_num

theorem log_four_lt : Real.log 4 < 1.4 := by
  have h4 : (4 : ℝ) = 2 ^ 2 := by norm_num
  rw [h4, Real.log_pow]
  have h := Real.log_two_lt_d9
  push_cast
  linarith

/-- Evaluation of `find_near_nodes` on the counterexample tree: the faraway
child `Q` lies outside the dynamic radius, the other three nodes inside. -/
theorem fnn_C2 : find_near_nodes nodesC2pre nnC2 = [0, 1, 2] := by
  have hmap : nodesC2pre.map (fun node =>
      (node.x - nnC2.x) ^ 2 + (node.y - nnC2.y) ^ 2)
      = [25, 10, 9, 1225] := by
    simp only [nodesC2pre, nnC2, List.map]
    norm_num
  have hlen : (nodesC2pre).length = 4 := rfl
  simp only [find_near_nodes]
  rw [hmap, hlen]
  push_cast
  have hlognn : (0 : ℝ) ≤ Real.log 4 / 4 :=
    div_nonneg (Real.log_nonneg (by norm_num)) (by norm_num)
  have hr : ((50 : ℝ) * Real.sqrt (Real.log 4 / 4)) ^ 2
      = 625 * Real.log 4 := by
    rw [mul_pow, Real.sq_sqrt hlognn]
    ring
  simp only [hr]
  have h625 : (625 : ℝ) < 625 * Real.log 4 := by
    have := log_four_gt_one
    linarith
  have h875 : 625 * Real.log 4 < 875 := by
    have := log_four_lt
    linarith
  have d25 : decide ((25 : ℝ) ≤ 625 * Real.log 4) = true :=
    decide_eq_true (by linarith)
  have d10 : decide ((10 : ℝ) ≤ 625 * Real.log 4) = true :=
    decide_eq_true (by linarith)
  have d9 : decide ((9 : ℝ) ≤ 625 * Real.log 4) = true :=
    decide_eq_true (by linarith)
  have d1225 : decide ((1225 : ℝ) ≤ 625 * Real.log 4) = false :=
    decide_eq_false (by linarith)
  simp only [List.filter, d25, d10, d9, d1225, List.map]
  have h25 : pyIndex (25 : ℝ) [25, 10, 9, 1225] = 0 := by
    rw [pyIndex, if_pos rfl]
  have h10 : pyIndex (10 : ℝ) [25, 10, 9, 1225] = 1 := by
    rw [pyIndex, if_neg (by norm_num), pyIndex, if_pos rfl]
  have h9 : pyIndex (9 : ℝ) [25, 10, 9, 1225] = 2 := by
    rw [pyIndex, if_neg (by norm_num), pyIndex, if_neg (by norm_num),
      pyIndex, if_pos rfl]
  rw [h25, h10, h9]

theorem rewireOne_C2_0 : rewireOne cfgRw nnC2 4 nodesC2all 0 = nodesC2all := by
  have hget : nodesC2all.getD 0 ⟨0, 0, 0, none⟩ = ⟨0, 0, 0, none⟩ := rfl
  have hs : Real.sqrt (((0 : ℝ) - 0) ^ 2 + ((0 : ℝ) - 5) ^ 2) = 5 :=
    sqrt_eval (by norm_num) (by norm_num)
  simp only [rewireOne, hget, show nnC2 = (⟨0, 5, 5, some 0⟩ : Node) from rfl]
  rw [if_neg (by rw [hs]; norm_num)]

theorem rewireOne_C2_1 : rewireOne cfgRw nnC2 4 nodesC2all 1 = nodesC2all := by
  have hget : nodesC2all.getD 1 ⟨0, 0, 0, none⟩ = ⟨3, 4, 5, some 0⟩ := rfl
  have hs : (0 : ℝ) ≤ Real.sqrt (((3 : ℝ) - 0) ^ 2 + ((4 : ℝ) - 5) ^ 2) :=
    Real.sqrt_nonneg _
  simp only [rewireOne, hget, show nnC2 = (⟨0, 5, 5, some 0⟩ : Node) from rfl]
  rw [if_neg (by push_neg; linarith)]

theorem rewireOne_C2_2 : rewireOne cfgRw nnC2 4 nodesC2all 2 = nodesC2post := by
  have hget : nodesC2all.getD 2 ⟨0, 0, 0, none⟩ = ⟨0, 8, 10, some 1⟩ := rfl
  have hs : Real.sqrt (((0 : ℝ) - 0) ^ 2 + ((8 : ℝ) - 5) ^ 2) = 3 :=
    sqrt_eval (by norm_num) (by norm_num)
  simp only [rewireOne, hget, show nnC2 = (⟨0, 5, 5, some 0⟩ : Node) from rfl]
  rw [if_pos (by rw [hs]; norm_num)]
  rw [if_pos (check_collision_extend_nil rfl _ _ _)]
  rw [hs]
  simp only [nodesC2all, nodesC2post, List.set]
  norm_num

/-- Evaluation of the whole rewire pass on the counterexample tree. -/
theorem rewireC2_eval : rewire cfgRw nodesC2all nnC2 [0, 1, 2] = nodesC2post := by
  unfold rewire
  have hlen : nodesC2all.length - 1 = 4 := rfl
  rw [hlen, List.foldl_cons, rewireOne_C2_0, List.foldl_cons, rewireOne_C2_1,
    List.foldl_cons, rewireOne_C2_2, List.foldl_nil]

/-- C2 counterexample: on a tree satisfying the exact cost equation at every
node (with the near set as `find_near_nodes` computes it on the
pre-insertion tree), the rewire pass re-parents `P` (index 2) onto the new
node and lowers its cost from 10 to 8, leaving its child `Q` (index 3) with
a stale cost: afterwards `Q.cost = 42` while
`cost(parent(Q)) + distance(Q, parent(Q)) = 8 + 32 = 40`, so the exact
equation does *not* hold for every node immediately after the rewire. -/
theorem rewire_cost_invariant_counterexample :
    nodesC2all = nodesC2pre ++ [nnC2]
    ∧ costInvariant nodesC2all
    ∧ find_near_nodes nodesC2pre nnC2 = [0, 1, 2]
    ∧ rewire cfgRw nodesC2all nnC2 [0, 1, 2] = nodesC2post
    ∧ ¬ costInvariant nodesC2post := by
  refine ⟨rfl, costInvariantC2, fnn_C2, rewireC2_eval, ?_⟩
  intro h
  have h3 := h 3 2 (by rw [show nodesC2post.length = 5 from rfl]; omega) rfl
  have e1 : ncost nodesC2post 3 = 42 := rfl
  have e2 : ncost nodesC2post 2 = 8 := rfl
  have e3 : npos nodesC2post 3 = (0, 40) := rfl
  have e4 : npos nodesC2post 2 = (0, 8) := rfl
  rw [e1, e2, e3, e4, dist_Q_P] at h3
  norm_num at h3

/-- Witness for the amended C2 on the concrete rewire: the relaxed
invariant survives the pass, and the rewired node (index 2) satisfies the
exact equation with respect to its new parent. -/
theorem rewire_reestablishes_for_rewired_witness :
    costGeInvariant (rewire cfgRw nodesC2all nnC2 [0, 1, 2])
    ∧ ncost (rewire cfgRw nodesC2all nnC2 [0, 1, 2]) 2
        = nnC2.cost + dist2 (npos nodesC2all 2) (nnC2.x, nnC2.y) := by
  have hlen : nodesC2all.length = 5 := rfl
  have hfresh : ∀ j, j < nodesC2all.length →
      nparent nodesC2all j ≠ some (nodesC2all.length - 1) := by
    intro j hj
    rw [hlen] at hj
    rw [show nodesC2all.length - 1 = 4 from rfl]
    interval_cases j
    · rw [show nparent nodesC2all 0 = none from rfl]; simp
    · rw [show nparent nodesC2all 1 = some 0 from rfl]; simp
    · rw [show nparent nodesC2all 2 = some 1 from rfl]; simp
    · rw [show nparent nodesC2all 3 = some 2 from rfl]; simp
    · rw [show nparent nodesC2all 4 = some 0 from rfl]; simp
  have hni : ∀ i ∈ ([0, 1, 2] : List ℕ), i < nodesC2all.length - 1 := by
    intro i hi
    rw [show nodesC2all.length - 1 = 4 from rfl]
    fin_cases hi <;> omega
  have h := rewire_reestablishes_for_rewired cfgRw treeInvC2
    (show nodesC2all[nodesC2all.length - 1]? = some nnC2 from rfl) hfresh
    [0, 1, 2] hni
  refine ⟨h.1, ?_⟩
  exact h.2 2 (by rw [hlen]; omega) (by rw [rewireC2_eval]; rfl)

/-- C3 counterexample: before the rewire every non-null parent handle on the
tree references a strictly smaller index, but the rewire pass re-parents the
node at index 2 onto the newly inserted node at index 4 — a forward parent
reference, contradicting the claim that handles always reference
strictly-earlier nodes. -/
theorem rewire_forward_reference_counterexample :
    (∀ j p, nparent nodesC2all j = some p → p < j)
    ∧ rewire cfgRw nodesC2all nnC2 [0, 1, 2] = nodesC2post
    ∧ nparent nodesC2post 2 = some 4
    ∧ 2 < 4 := by
  refine ⟨?_, rewireC2_eval, rfl, by omega⟩
  intro j p hp
  have hj := nparent_some_lt hp
  rw [show nodesC2all.length = 5 from rfl] at hj
  interval_cases j
  · rw [show nparent nodesC2all 0 = none from rfl] at hp
    cases hp
  · rw [show nparent nodesC2all 1 = some 0 from rfl] at hp
    injection hp with h
    omega
  · rw [show nparent nodesC2all 2 = some 1 from rfl] at hp
    injection hp with h
    omega
  · rw [show nparent nodesC2all 3 = some 2 from rfl] at hp
    injection hp with h
    omega
  · rw [show nparent nodesC2all 4 = some 0 from rfl] at hp
    injection hp with h
    omega

/-- C3 (amended): the parent handle assigned at insertion time (steering
fallback or `choose_parent`) always references a node inserted strictly
earlier, but `rewire` re-parents near nodes onto the newly inserted node's
index — the largest index — so forward references do occur after rewiring;
the parent relation nevertheless remains acyclic (C4). -/
theorem parent_handles_amended (cfg : Config) (nodes : List Node)
    (newNode : Node) (nearInds : List ℕ) (q : ℕ)
    (hq : newNode.parent = some q) (hqlt : q < nodes.length)
    (hni : ∀ i ∈ nearInds, i < nodes.length) :
    (∃ p, (choose_parent cfg nodes newNode nearInds).parent = some p
        ∧ p < nodes.length)
    ∧ ∀ (nds : List Node) (nn : Node) (j : ℕ),
        nparent (rewire cfg nds nn nearInds) j = nparent nds j
        ∨ nparent (rewire cfg nds nn nearInds) j = some (nds.length - 1) := by
  constructor
  · rcases choose_parent_spec cfg nodes newNode nearInds with h | ⟨i, hm, h⟩
    · exact ⟨q, by rw [h]; exact hq, hqlt⟩
    · exact ⟨i, by rw [h], hni i hm⟩
  · intro nds nn j
    exact rewire_parent cfg nds nn nearInds j

/-- Witness for the amended C3. -/
theorem parent_handles_amended_witness :
    ∃ p, (choose_parent cfgRw [⟨0, 0, 0, none⟩] ⟨1, 0, 1, some 0⟩ []).parent
        = some p
      ∧ p < ([⟨0, 0, 0, none⟩] : List Node).length := by
  have h := parent_handles_amended cfgRw [⟨0, 0, 0, none⟩] ⟨1, 0, 1, some 0⟩
    [] 0 rfl (by norm_num) (by intro i hi; cases hi)
  exact h.1

/-! ### C7: the near-node candidate list -/

/-- A tree with two nodes equidistant from the new node. -/
def nodesC7 : List Node :=
  [⟨0, 0, 0, none⟩, ⟨2, 0, 2, some 0⟩, ⟨0, 2, 2, some 0⟩]

/-- The newly steered node of the C7 counterexample, at the origin. -/
def nnC7 : Node :=
  ⟨0, 0, 0, some 0⟩

theorem log_three_gt_one : (1 : ℝ) < Real.log 3 := by
  rw [Real.lt_log_iff_exp_lt (by norm_num : (0 : ℝ) < 3)]
  calc Real.exp 1 < 2.7182818286 := Real.exp_one_lt_d9
  _ < 3 := by norm_num

/-- Evaluation of `find_near_nodes` on the tie: the equidistant nodes 1 and
2 both contribute `dlist.index` of the *first* occurrence of the shared
distance value. -/
theorem fnn_C7 : find_near_nodes nodesC7 nnC7 = [0, 1, 1] := by
  have hmap : nodesC7.map (fun node =>
      (node.x - nnC7.x) ^ 2 + (node.y - nnC7.y) ^ 2)
      = [0, 4, 4] := by
    simp only [nodesC7, nnC7, List.map]
    norm_num
  have hlen : (nodesC7).length = 3 := rfl
  simp only [find_near_nodes]
  rw [hmap, hlen]
  push_cast
  have hlognn : (0 : ℝ) ≤ Real.log 3 / 3 :=
    div_nonneg (Real.log_nonneg (by norm_num)) (by norm_num)
  have hr : ((50 : ℝ) * Real.sqrt (Real.log 3 / 3)) ^ 2
      = 2500 * (Real.log 3 / 3) := by
    rw [mul_pow, Real.sq_sqrt hlognn]
    ring
  simp only [hr]
  have hgt : (4 : ℝ) < 2500 * (Real.log 3 / 3) := by
    have := log_three_gt_one
    nlinarith
  have d0 : decide ((0 : ℝ) ≤ 2500 * (Real.log 3 / 3)) = true :=
    decide_eq_true (by linarith)
  have d4 : decide ((4 : ℝ) ≤ 2500 * (Real.log 3 / 3)) = true :=
    decide_eq_true (by linarith)
  simp only [List.filter, d0, d4, List.map]
  have h0 : pyIndex (0 : ℝ) [0, 4, 4] = 0 := by
    rw [pyIndex, if_pos rfl]
  have h4 : pyIndex (4 : ℝ) [0, 4, 4] = 1 := by
    rw [pyIndex, if_neg (by norm_num), pyIndex, if_pos rfl]
  rw [h0, h4]

/-- C7 counterexample: node 2 lies within the dynamic radius of the new
node, yet its index is not in the candidate list — the tie with node 1 makes
`dlist.index` return index 1 twice instead. -/
theorem find_near_nodes_tie_counterexample :
    find_near_nodes nodesC7 nnC7 = [0, 1, 1]
    ∧ dist2 (npos nodesC7 2) (nnC7.x, nnC7.y)
        ≤ (50 : ℝ) * Real.sqrt (Real.log nodesC7.length / nodesC7.length)
    ∧ 2 ∉ find_near_nodes nodesC7 nnC7 := by
  refine ⟨fnn_C7, ?_, ?_⟩
  · have hd : dist2 (npos nodesC7 2) (nnC7.x, nnC7.y) = 2 := by
      show dist2 (0, 2) (0, 0) = 2
      unfold dist2
      exact sqrt_eval (by norm_num) (by norm_num)
    rw [hd, show (nodesC7).length = 3 from rfl]
    push_cast
    have h1 : (1 : ℝ) / 3 ≤ Real.log 3 / 3 := by
      have := log_three_gt_one
      linarith
    have h2 : Real.sqrt (1 / 3) ≤ Real.sqrt (Real.log 3 / 3) :=
      Real.sqrt_le_sqrt h1
    have h3 : (1 : ℝ) / 25 ≤ Real.sqrt (1 / 3) := by
      rw [Real.le_sqrt (by norm_num) (by norm_num)]
      norm_num
    linarith
  · rw [fnn_C7]
    norm_num

/-- C7 (amended): computed on the tree state before the new node's
insertion, the candidate list contains, for each in-radius node, the *first*
index attaining its squared distance value; when the squared distances are
pairwise distinct this is exactly the set of indices of nodes within the
radius `r = 50·sqrt(ln n / n)` (membership stated against `r²`, as the code
compares squared distances). -/
theorem find_near_nodes_mem_iff (nodes : List Node) (newNode : Node)
    (hdistinct : (nodes.map (fun node =>
      (node.x - newNode.x) ^ 2 + (node.y - newNode.y) ^ 2)).Nodup) :
    ∀ i, i ∈ find_near_nodes nodes newNode ↔
      ∃ h : i < nodes.length,
        ((nodes[i]).x - newNode.x) ^ 2 + ((nodes[i]).y - newNode.y) ^ 2
          ≤ ((50 : ℝ) * Real.sqrt
              (Real.log nodes.length / nodes.length)) ^ 2 := by
  intro i
  simp only [find_near_nodes]
  constructor
  · intro hi
    obtain ⟨v, hvf, rfl⟩ := List.mem_map.1 hi
    have hv : v ∈ nodes.map (fun node =>
        (node.x - newNode.x) ^ 2 + (node.y - newNode.y) ^ 2) :=
      (List.mem_filter.1 hvf).1
    have hvR : v ≤ ((50 : ℝ) * Real.sqrt
        (Real.log nodes.length / nodes.length)) ^ 2 :=
      of_decide_eq_true (List.mem_filter.1 hvf).2
    have hlt' : pyIndex v (nodes.map (fun node =>
        (node.x - newNode.x) ^ 2 + (node.y - newNode.y) ^ 2))
        < nodes.length := by
      simpa using pyIndex_lt_length hv
    refine ⟨hlt', ?_⟩
    have hget := getElem?_pyIndex hv
    rw [List.getElem?_map, List.getElem?_eq_getElem hlt'] at hget
    have heq : ((nodes[pyIndex v (nodes.map (fun node =>
        (node.x - newNode.x) ^ 2 + (node.y - newNode.y) ^ 2))]).x
          - newNode.x) ^ 2
        + ((nodes[pyIndex v (nodes.map (fun node =>
        (node.x - newNode.x) ^ 2 + (node.y - newNode.y) ^ 2))]).y
          - newNode.y) ^ 2 = v := by
      simpa using hget
    exact le_of_eq_of_le heq hvR
  · rintro ⟨h, hle⟩
    have hfil : ((nodes[i]).x - newNode.x) ^ 2
        + ((nodes[i]).y - newNode.y) ^ 2
        ∈ (nodes.map (fun node =>
          (node.x - newNode.x) ^ 2 + (node.y - newNode.y) ^ 2)).filter
            (fun v => v ≤ ((50 : ℝ) * Real.sqrt
              (Real.log nodes.length / nodes.length)) ^ 2) := by
      rw [List.mem_filter]
      constructor
      · have := List.mem_map_of_mem (fun node =>
          (node.x - newNode.x) ^ 2 + (node.y - newNode.y) ^ 2)
          (List.getElem_mem h)
        simpa using this
      · exact decide_eq_true hle
    have hidx : pyIndex (((nodes[i]).x - newNode.x) ^ 2
        + ((nodes[i]).y - newNode.y) ^ 2)
        (nodes.map (fun node =>
          (node.x - newNode.x) ^ 2 + (node.y - newNode.y) ^ 2)) = i := by
      have hi2 : i < (nodes.map (fun node =>
          (node.x - newNode.x) ^ 2 + (node.y - newNode.y) ^ 2)).length := by
        simpa using h
      have hmi := pyIndex_getElem_of_nodup hdistinct hi2
      simpa using hmi
    exact List.mem_map.2 ⟨_, hfil, hidx⟩

/-- Witness for the amended C7 on a singleton tree (radius 0). -/
theorem find_near_nodes_mem_iff_witness :
    0 ∈ find_near_nodes [(⟨0, 0, 0, none⟩ : Node)] ⟨1, 0, 1, some 0⟩ ↔
      ∃ h : 0 < ([(⟨0, 0, 0, none⟩ : Node)] : List Node).length,
        ((([(⟨0, 0, 0, none⟩ : Node)] : List Node)[0]).x - (1 : ℝ)) ^ 2
          + ((([(⟨0, 0, 0, none⟩ : Node)] : List Node)[0]).y - (0 : ℝ)) ^ 2
          ≤ ((50 : ℝ) * Real.sqrt
            (Real.log ([(⟨0, 0, 0, none⟩ : Node)] : List Node).length
              / ([(⟨0, 0, 0, none⟩ : Node)] : List Node).length)) ^ 2 :=
  find_near_nodes_mem_iff [(⟨0, 0, 0, none⟩ : Node)] ⟨1, 0, 1, some 0⟩
    (by simp) 0

/-! ### A concrete executable run (used by C1 and C6) -/

/-- The proper rotation produced by the SVD-based setup for an axis-aligned
start→goal direction: the identity. -/
def CmatI : Fin 3 → Fin 3 → ℝ :=
  fun i j => if i = j then 1 else 0

/-- The informed-mode oracle of the run's fourth iteration: unit-ball draws
`a = 0, b = 1`, putting the ball sample at `(1, 0)`. -/
def drawRun4 : Draw :=
  ⟨50, 10, 0, 0, 1⟩

def nodesR1 : List Node :=
  [⟨0, 0, 0, none⟩, ⟨1 / 2, 0, 1 / 2, some 0⟩]

def nodesR2 : List Node :=
  [⟨0, 0, 0, none⟩, ⟨1 / 2, 0, 1 / 2, some 0⟩, ⟨1, 0, 1, some 0⟩]

def nodesR3 : List Node :=
  [⟨0, 0, 0, none⟩, ⟨1 / 2, 0, 1 / 2, some 0⟩, ⟨1, 0, 1, some 0⟩,
   ⟨3 / 2, 0, 3 / 2, some 0⟩]

def nodesR4 : List Node :=
  [⟨0, 0, 0, none⟩, ⟨1 / 2, 0, 1 / 2, some 0⟩, ⟨1, 0, 1, some 0⟩,
   ⟨3 / 2, 0, 3 / 2, some 0⟩, ⟨2, 0, 2, some 0⟩]

def pathR3 : List Point :=
  [(8 / 5, 0), (3 / 2, 0), (0, 0)]

def pathR4 : List Point :=
  [(8 / 5, 0), (2, 0), (0, 0)]

def SR1 : SState := ⟨nodesR1, ⊤, ⊤, none⟩

def SR2 : SState := ⟨nodesR2, ⊤, ⊤, none⟩

def SR3 : SState := ⟨nodesR3, ((8 / 5 : ℝ) : WithTop ℝ), ⊤, some pathR3⟩

def SR4 : SState := ⟨nodesR4, ((12 / 5 : ℝ) : WithTop ℝ), ⊤, some pathR4⟩

theorem atan2_zero_pos {x : ℝ} (h : 0 < x) : atan2 0 x = 0 := by
  unfold atan2
  rw [if_pos h, zero_div, Real.arctan_zero]

theorem pyMin_singleton {α : Type} [LinearOrder α] (d x : α) :
    pyMin d [x] = x := rfl

theorem pyMin_pair {α : Type} [LinearOrder α] (d x y : α) :
    pyMin d [x, y] = min x y := rfl

theorem pyMin_triple {α : Type} [LinearOrder α] (d x y z : α) :
    pyMin d [x, y, z] = min (min x y) z := rfl

theorem pyMin_quad {α : Type} [LinearOrder α] (d x y z w : α) :
    pyMin d [x, y, z, w] = min (min (min x y) z) w := rfl

theorem pyIndex_head {α : Type} [DecidableEq α] (x : α) (xs : List α) :
    pyIndex x (x :: xs) = 0 := by
  rw [pyIndex, if_pos rfl]

theorem pyIndex_cons_ne {α : Type} [DecidableEq α] {x v : α} (h : x ≠ v)
    (xs : List α) : pyIndex v (x :: xs) = pyIndex v xs + 1 := by
  rw [pyIndex, if_neg h]

theorem cfgRun_obstacles : cfgRun.obstacleList = [] := rfl

theorem cfgRun_expand : cfgRun.expandDis = 1 / 2 := rfl

theorem collision_check_nil (nd : Node) : collision_check nd [] = true := rfl

theorem cce_cfgRun (nd : Node) (θ d : ℝ) :
    check_collision_extend cfgRun nd θ d = true :=
  check_collision_extend_nil rfl nd θ d

theorem initState_cfgRun_nodes :
    (initState cfgRun).nodes = [⟨0, 0, 0, none⟩] := rfl

theorem is_near_goal_run_far (x : ℝ) (c : ℝ) (p : Option ℕ)
    (hx : ¬ Real.sqrt ((x - 8 / 5) ^ 2 + ((0 : ℝ) - 0) ^ 2) < 1 / 2) :
    is_near_goal cfgRun ⟨x, 0, c, p⟩ = false := by
  unfold is_near_goal line_cost
  exact decide_eq_false hx

/-- First iteration of the run: steering inserts `(1/2, 0)` under the root;
the near set is empty (radius 0 at tree size 1). -/
theorem growOnce_R1 :
    growOnce cfgRun CmatI (cMinOf cfgRun) (xCenterOf cfgRun)
      (initState cfgRun) drawRun = SR1 := by
  have hrnd : informed_sample cfgRun CmatI (⊤ : WithTop ℝ)
      (cMinOf cfgRun) (xCenterOf cfgRun) drawRun = ((10 : ℝ), (0 : ℝ)) := rfl
  have hnear : get_nearest_list_index [(⟨0, 0, 0, none⟩ : Node)]
      ((10 : ℝ), (0 : ℝ)) = 0 := by
    unfold get_nearest_list_index
    simp only [List.map, pyMin_singleton, pyIndex_head]
  have hatan : atan2 (0 : ℝ) (10 : ℝ) = 0 := atan2_zero_pos (by norm_num)
  have hfnn : find_near_nodes [(⟨0, 0, 0, none⟩ : Node)]
      ⟨1 / 2, 0, 1 / 2, some 0⟩ = [] := by
    simp only [find_near_nodes, List.map, List.length_singleton]
    have hm : ((⟨0, 0, 0, none⟩ : Node).x - (⟨1 / 2, 0, 1 / 2, some 0⟩ : Node).x) ^ 2
        + ((⟨0, 0, 0, none⟩ : Node).y - (⟨1 / 2, 0, 1 / 2, some 0⟩ : Node).y) ^ 2
        = (1 / 4 : ℝ) := by norm_num
    rw [hm]
    have hr : ((50 : ℝ) * Real.sqrt (Real.log (1 : ℕ) / (1 : ℕ))) ^ 2 = 0 := by
      push_cast
      rw [div_one, Real.log_one, Real.sqrt_zero]
      ring
    push_cast
    push_cast at hr
    simp only [hr]
    have hd : decide ((1 / 4 : ℝ) ≤ 0) = false := decide_eq_false (by norm_num)
    simp only [List.filter, hd, List.map]
  have hcp : choose_parent cfgRun [(⟨0, 0, 0, none⟩ : Node)]
      ⟨1 / 2, 0, 1 / 2, some 0⟩ [] = ⟨1 / 2, 0, 1 / 2, some 0⟩ := rfl
  have hng : is_near_goal cfgRun ⟨1 / 2, 0, 1 / 2, some 0⟩ = false := by
    refine is_near_goal_run_far _ _ _ ?_
    rw [show ((1 / 2 : ℝ) - 8 / 5) ^ 2 + ((0 : ℝ) - 0) ^ 2 = (11 / 10) ^ 2
      by norm_num, Real.sqrt_sq (by norm_num)]
    norm_num
  simp only [growOnce, initState_cfgRun_nodes,
    show (initState cfgRun).cBest = (⊤ : WithTop ℝ) from rfl,
    show (initState cfgRun).pathLen = (⊤ : WithTop ℝ) from rfl,
    show (initState cfgRun).path = (none : Option (List Point)) from rfl,
    hrnd, hnear, List.getD_cons_zero, sub_self, sub_zero, hatan,
    get_new_node, cfgRun_expand, Real.cos_zero, Real.sin_zero, mul_one,
    mul_zero, add_zero, zero_add, cfgRun_obstacles, collision_check_nil,
    cce_cfgRun, and_self, if_true, hfnn, hcp, List.singleton_append,
    rewire, List.foldl_nil, hng, Bool.false_eq_true, if_false,
    SR1, nodesR1]

/-- A rewire step whose strict-improvement guard cannot fire because the
near node is already at most as expensive as the new node. -/
theorem rewireOne_noop_le (cfg : Config) (nn : Node) (last : ℕ)
    (nodes : List Node) (i : ℕ)
    (h : (nodes.getD i ⟨0, 0, 0, none⟩).cost ≤ nn.cost) :
    rewireOne cfg nn last nodes i = nodes := by
  simp only [rewireOne]
  have hs := Real.sqrt_nonneg (((nodes.getD i ⟨0, 0, 0, none⟩).x - nn.x) ^ 2
    + ((nodes.getD i ⟨0, 0, 0, none⟩).y - nn.y) ^ 2)
  rw [if_neg (by push_neg; linarith)]

/-- Second iteration of the run: steering from `(1/2, 0)` inserts `(1, 0)`;
`choose_parent` re-parents it onto the root (tied costs, earliest index
wins), creating an edge of length 1 — twice the step length. -/
theorem growOnce_R2 :
    growOnce cfgRun CmatI (cMinOf cfgRun) (xCenterOf cfgRun) SR1 drawRun
      = SR2 := by
  have hrnd : informed_sample cfgRun CmatI (⊤ : WithTop ℝ)
      (cMinOf cfgRun) (xCenterOf cfgRun) drawRun = ((10 : ℝ), (0 : ℝ)) := rfl
  have hnear : get_nearest_list_index
      [(⟨0, 0, 0, none⟩ : Node), ⟨1 / 2, 0, 1 / 2, some 0⟩]
      ((10 : ℝ), (0 : ℝ)) = 1 := by
    unfold get_nearest_list_index
    have hmap : ([(⟨0, 0, 0, none⟩ : Node), ⟨1 / 2, 0, 1 / 2, some 0⟩]).map
        (fun node => (node.x - ((10 : ℝ), (0 : ℝ)).1) ^ 2
          + (node.y - ((10 : ℝ), (0 : ℝ)).2) ^ 2)
        = [100, 361 / 4] := by
      simp only [List.map]
      norm_num
    rw [hmap]
    simp only [pyMin_pair]
    rw [min_eq_right (by norm_num : (361 / 4 : ℝ) ≤ 100),
      pyIndex_cons_ne (by norm_num : (100 : ℝ) ≠ 361 / 4), pyIndex_head]
  have hatan : atan2 (0 : ℝ) (10 - 1 / 2 : ℝ) = 0 :=
    atan2_zero_pos (by norm_num)
  have hfnn : find_near_nodes
      [(⟨0, 0, 0, none⟩ : Node), ⟨1 / 2, 0, 1 / 2, some 0⟩]
      ⟨1, 0, 1, some 1⟩ = [0, 1] := by
    have hmap : ([(⟨0, 0, 0, none⟩ : Node), ⟨1 / 2, 0, 1 / 2, some 0⟩]).map
        (fun node => (node.x - (⟨1, 0, 1, some 1⟩ : Node).x) ^ 2
          + (node.y - (⟨1, 0, 1, some 1⟩ : Node).y) ^ 2)
        = [1, 1 / 4] := by
      simp only [List.map]
      norm_num
    simp only [find_near_nodes]
    rw [hmap, show ([(⟨0, 0, 0, none⟩ : Node),
      ⟨1 / 2, 0, 1 / 2, some 0⟩]).length = 2 from rfl]
    push_cast
    have hlog2 : (0.6931471803 : ℝ) < Real.log 2 := Real.log_two_gt_d9
    have hlognn : (0 : ℝ) ≤ Real.log 2 / 2 := by linarith
    have hr : ((50 : ℝ) * Real.sqrt (Real.log 2 / 2)) ^ 2
        = 1250 * Real.log 2 := by
      rw [mul_pow, Real.sq_sqrt hlognn]
      ring
    simp only [hr]
    have d1 : decide ((1 : ℝ) ≤ 1250 * Real.log 2) = true :=
      decide_eq_true (by linarith)
    have d14 : decide ((1 / 4 : ℝ) ≤ 1250 * Real.log 2) = true :=
      decide_eq_true (by linarith)
    simp only [List.filter, d1, d14, List.map]
    rw [pyIndex_head, pyIndex_cons_ne (by norm_num : (1 : ℝ) ≠ 1 / 4),
      pyIndex_head]
  have he0 : chooseParentEntry cfgRun
      [(⟨0, 0, 0, none⟩ : Node), ⟨1 / 2, 0, 1 / 2, some 0⟩]
      ⟨1, 0, 1, some 1⟩ 0 = ((1 : ℝ) : WithTop ℝ) := by
    simp only [chooseParentEntry, List.getD_cons_zero]
    rw [if_pos (cce_cfgRun _ _ _)]
    rw [show Real.sqrt (((⟨1, 0, 1, some 1⟩ : Node).x
        - (⟨0, 0, 0, none⟩ : Node).x) ^ 2
        + ((⟨1, 0, 1, some 1⟩ : Node).y - (⟨0, 0, 0, none⟩ : Node).y) ^ 2)
      = 1 from sqrt_eval (by norm_num) (by norm_num)]
    rw [WithTop.coe_eq_coe]
    norm_num
  have he1 : chooseParentEntry cfgRun
      [(⟨0, 0, 0, none⟩ : Node), ⟨1 / 2, 0, 1 / 2, some 0⟩]
      ⟨1, 0, 1, some 1⟩ 1 = ((1 : ℝ) : WithTop ℝ) := by
    simp only [chooseParentEntry, List.getD_cons_succ, List.getD_cons_zero]
    rw [if_pos (cce_cfgRun _ _ _)]
    rw [show Real.sqrt (((⟨1, 0, 1, some 1⟩ : Node).x
        - (⟨1 / 2, 0, 1 / 2, some 0⟩ : Node).x) ^ 2
        + ((⟨1, 0, 1, some 1⟩ : Node).y
          - (⟨1 / 2, 0, 1 / 2, some 0⟩ : Node).y) ^ 2)
      = 1 / 2 from sqrt_eval (by norm_num) (by norm_num)]
    rw [WithTop.coe_eq_coe]
    norm_num
  have hcp : choose_parent cfgRun
      [(⟨0, 0, 0, none⟩ : Node), ⟨1 / 2, 0, 1 / 2, some 0⟩]
      ⟨1, 0, 1, some 1⟩ [0, 1] = ⟨1, 0, 1, some 0⟩ := by
    unfold choose_parent
    rw [if_neg (by simp : ¬([0, 1] : List ℕ) = [])]
    simp only [List.map, he0, he1, pyMin_pair, min_self]
    rw [dif_neg (by simp : ¬((1 : ℝ) : WithTop ℝ) = ⊤)]
    simp only [pyIndex_head, List.getD_cons_zero, WithTop.untop_coe]
  have hrw : rewire cfgRun
      [(⟨0, 0, 0, none⟩ : Node), ⟨1 / 2, 0, 1 / 2, some 0⟩,
       ⟨1, 0, 1, some 0⟩] ⟨1, 0, 1, some 0⟩ [0, 1]
      = [(⟨0, 0, 0, none⟩ : Node), ⟨1 / 2, 0, 1 / 2, some 0⟩,
         ⟨1, 0, 1, some 0⟩] := by
    unfold rewire
    rw [List.foldl_cons,
      rewireOne_noop_le cfgRun ⟨1, 0, 1, some 0⟩
        (([(⟨0, 0, 0, none⟩ : Node), ⟨1 / 2, 0, 1 / 2, some 0⟩,
          ⟨1, 0, 1, some 0⟩] : List Node).length - 1)
        [⟨0, 0, 0, none⟩, ⟨1 / 2, 0, 1 / 2, some 0⟩, ⟨1, 0, 1, some 0⟩] 0
        (by simp only [List.getD_cons_zero]; norm_num),
      List.foldl_cons,
      rewireOne_noop_le cfgRun ⟨1, 0, 1, some 0⟩
        (([(⟨0, 0, 0, none⟩ : Node), ⟨1 / 2, 0, 1 / 2, some 0⟩,
          ⟨1, 0, 1, some 0⟩] : List Node).length - 1)
        [⟨0, 0, 0, none⟩, ⟨1 / 2, 0, 1 / 2, some 0⟩, ⟨1, 0, 1, some 0⟩] 1
        (by simp only [List.getD_cons_succ, List.getD_cons_zero]; norm_num),
      List.foldl_nil]
  have hng : is_near_goal cfgRun ⟨1, 0, 1, some 0⟩ = false := by
    refine is_near_goal_run_far _ _ _ ?_
    rw [show ((1 : ℝ) - 8 / 5) ^ 2 + ((0 : ℝ) - 0) ^ 2 = (3 / 5) ^ 2
      by norm_num, Real.sqrt_sq (by norm_num)]
    norm_num
  simp only [growOnce,
    show SR1.nodes = [(⟨0, 0, 0, none⟩ : Node), ⟨1 / 2, 0, 1 / 2, some 0⟩]
      from rfl,
    show SR1.cBest = (⊤ : WithTop ℝ) from rfl,
    show SR1.pathLen = (⊤ : WithTop ℝ) from rfl,
    show SR1.path = (none : Option (List Point)) from rfl,
    hrnd, hnear, List.getD_cons_succ, List.getD_cons_zero, sub_self, hatan,
    get_new_node, cfgRun_expand, Real.cos_zero, Real.sin_zero, mul_one,
    mul_zero, add_zero, cfgRun_obstacles, collision_check_nil,
    cce_cfgRun, and_self, if_true,
    show (1 / 2 : ℝ) + 1 / 2 = 1 by norm_num,
    hfnn, hcp, List.cons_append, List.nil_append, hrw, hng,
    Bool.false_eq_true, if_false, SR2, nodesR2]

theorem is_near_goal_run_near (x c : ℝ) (p : Option ℕ)
    (hx : Real.sqrt ((x - 8 / 5) ^ 2 + ((0 : ℝ) - 0) ^ 2) < 1 / 2) :
    is_near_goal cfgRun ⟨x, 0, c, p⟩ = true := by
  unfold is_near_goal line_cost
  exact decide_eq_true hx

/-- Third iteration of the run: `(3/2, 0)` is inserted under the root (edge
length 3/2), lands within the step length of the goal `(8/5, 0)`, and the
candidate path of length 8/5 is recorded as the best path. -/
theorem growOnce_R3 :
    growOnce cfgRun CmatI (cMinOf cfgRun) (xCenterOf cfgRun) SR2 drawRun
      = SR3 := by
  have hrnd : informed_sample cfgRun CmatI (⊤ : WithTop ℝ)
      (cMinOf cfgRun) (xCenterOf cfgRun) drawRun = ((10 : ℝ), (0 : ℝ)) := rfl
  have hnear : get_nearest_list_index
      [(⟨0, 0, 0, none⟩ : Node), ⟨1 / 2, 0, 1 / 2, some 0⟩,
       ⟨1, 0, 1, some 0⟩] ((10 : ℝ), (0 : ℝ)) = 2 := by
    unfold get_nearest_list_index
    have hmap : ([(⟨0, 0, 0, none⟩ : Node), ⟨1 / 2, 0, 1 / 2, some 0⟩,
        ⟨1, 0, 1, some 0⟩]).map
        (fun node => (node.x - ((10 : ℝ), (0 : ℝ)).1) ^ 2
          + (node.y - ((10 : ℝ), (0 : ℝ)).2) ^ 2)
        = [100, 361 / 4, 81] := by
      simp only [List.map]
      norm_num
    rw [hmap]
    simp only [pyMin_triple]
    rw [min_eq_right (by norm_num : (361 / 4 : ℝ) ≤ 100),
      min_eq_right (by norm_num : (81 : ℝ) ≤ 361 / 4),
      pyIndex_cons_ne (by norm_num : (100 : ℝ) ≠ 81),
      pyIndex_cons_ne (by norm_num : (361 / 4 : ℝ) ≠ 81), pyIndex_head]
  have hatan : atan2 (0 : ℝ) (10 - 1 : ℝ) = 0 :=
    atan2_zero_pos (by norm_num)
  have hfnn : find_near_nodes
      [(⟨0, 0, 0, none⟩ : Node), ⟨1 / 2, 0, 1 / 2, some 0⟩,
       ⟨1, 0, 1, some 0⟩] ⟨3 / 2, 0, 3 / 2, some 2⟩ = [0, 1, 2] := by
    have hmap : ([(⟨0, 0, 0, none⟩ : Node), ⟨1 / 2, 0, 1 / 2, some 0⟩,
        ⟨1, 0, 1, some 0⟩]).map
        (fun node => (node.x - (⟨3 / 2, 0, 3 / 2, some 2⟩ : Node).x) ^ 2
          + (node.y - (⟨3 / 2, 0, 3 / 2, some 2⟩ : Node).y) ^ 2)
        = [9 / 4, 1, 1 / 4] := by
      simp only [List.map]
      norm_num
    simp only [find_near_nodes]
    rw [hmap, show ([(⟨0, 0, 0, none⟩ : Node), ⟨1 / 2, 0, 1 / 2, some 0⟩,
      ⟨1, 0, 1, some 0⟩]).length = 3 from rfl]
    push_cast
    have hlognn : (0 : ℝ) ≤ Real.log 3 / 3 :=
      div_nonneg (Real.log_nonneg (by norm_num)) (by norm_num)
    have hr : ((50 : ℝ) * Real.sqrt (Real.log 3 / 3)) ^ 2
        = 2500 * (Real.log 3 / 3) := by
      rw [mul_pow, Real.sq_sqrt hlognn]
      ring
    simp only [hr]
    have hgt := log_three_gt_one
    have d0 : decide ((9 / 4 : ℝ) ≤ 2500 * (Real.log 3 / 3)) = true :=
      decide_eq_true (by nlinarith)
    have d1 : decide ((1 : ℝ) ≤ 2500 * (Real.log 3 / 3)) = true :=
      decide_eq_true (by nlinarith)
    have d2 : decide ((1 / 4 : ℝ) ≤ 2500 * (Real.log 3 / 3)) = true :=
      decide_eq_true (by nlinarith)
    simp only [List.filter, d0, d1, d2, List.map]
    rw [pyIndex_head,
      pyIndex_cons_ne (by norm_num : (9 / 4 : ℝ) ≠ 1), pyIndex_head,
      pyIndex_cons_ne (by norm_num : (9 / 4 : ℝ) ≠ 1 / 4),
      pyIndex_cons_ne (by norm_num : (1 : ℝ) ≠ 1 / 4), pyIndex_head]
  have he0 : chooseParentEntry cfgRun
      [(⟨0, 0, 0, none⟩ : Node), ⟨1 / 2, 0, 1 / 2, some 0⟩,
       ⟨1, 0, 1, some 0⟩] ⟨3 / 2, 0, 3 / 2, some 2⟩ 0
      = ((3 / 2 : ℝ) : WithTop ℝ) := by
    simp only [chooseParentEntry, List.getD_cons_zero]
    rw [if_pos (cce_cfgRun _ _ _)]
    rw [show Real.sqrt (((⟨3 / 2, 0, 3 / 2, some 2⟩ : Node).x
        - (⟨0, 0, 0, none⟩ : Node).x) ^ 2
        + ((⟨3 / 2, 0, 3 / 2, some 2⟩ : Node).y
          - (⟨0, 0, 0, none⟩ : Node).y) ^ 2)
      = 3 / 2 from sqrt_eval (by norm_num) (by norm_num)]
    rw [WithTop.coe_eq_coe]
    norm_num
  have he1 : chooseParentEntry cfgRun
      [(⟨0, 0, 0, none⟩ : Node), ⟨1 / 2, 0, 1 / 2, some 0⟩,
       ⟨1, 0, 1, some 0⟩] ⟨3 / 2, 0, 3 / 2, some 2⟩ 1
      = ((3 / 2 : ℝ) : WithTop ℝ) := by
    simp only [chooseParentEntry, List.getD_cons_succ, List.getD_cons_zero]
    rw [if_pos (cce_cfgRun _ _ _)]
    rw [show Real.sqrt (((⟨3 / 2, 0, 3 / 2, some 2⟩ : Node).x
        - (⟨1 / 2, 0, 1 / 2, some 0⟩ : Node).x) ^ 2
        + ((⟨3 / 2, 0, 3 / 2, some 2⟩ : Node).y
          - (⟨1 / 2, 0, 1 / 2, some 0⟩ : Node).y) ^ 2)
      = 1 from sqrt_eval (by norm_num) (by norm_num)]
    rw [WithTop.coe_eq_coe]
    norm_num
  have he2 : chooseParentEntry cfgRun
      [(⟨0, 0, 0, none⟩ : Node), ⟨1 / 2, 0, 1 / 2, some 0⟩,
       ⟨1, 0, 1, some 0⟩] ⟨3 / 2, 0, 3 / 2, some 2⟩ 2
      = ((3 / 2 : ℝ) : WithTop ℝ) := by
    simp only [chooseParentEntry, List.getD_cons_succ, List.getD_cons_zero]
    rw [if_pos (cce_cfgRun _ _ _)]
    rw [show Real.sqrt (((⟨3 / 2, 0, 3 / 2, some 2⟩ : Node).x
        - (⟨1, 0, 1, some 0⟩ : Node).x) ^ 2
        + ((⟨3 / 2, 0, 3 / 2, some 2⟩ : Node).y
          - (⟨1, 0, 1, some 0⟩ : Node).y) ^ 2)
      = 1 / 2 from sqrt_eval (by norm_num) (by norm_num)]
    rw [WithTop.coe_eq_coe]
    norm_num
  have hcp : choose_parent cfgRun
      [(⟨0, 0, 0, none⟩ : Node), ⟨1 / 2, 0, 1 / 2, some 0⟩,
       ⟨1, 0, 1, some 0⟩] ⟨3 / 2, 0, 3 / 2, some 2⟩ [0, 1, 2]
      = ⟨3 / 2, 0, 3 / 2, some 0⟩ := by
    unfold choose_parent
    rw [if_neg (by simp : ¬([0, 1, 2] : List ℕ) = [])]
    simp only [List.map, he0, he1, he2, pyMin_triple, min_self]
    rw [dif_neg (by simp : ¬((3 / 2 : ℝ) : WithTop ℝ) = ⊤)]
    simp only [pyIndex_head, List.getD_cons_zero, WithTop.untop_coe]
  have hrw : rewire cfgRun
      [(⟨0, 0, 0, none⟩ : Node), ⟨1 / 2, 0, 1 / 2, some 0⟩,
       ⟨1, 0, 1, some 0⟩, ⟨3 / 2, 0, 3 / 2, some 0⟩]
      ⟨3 / 2, 0, 3 / 2, some 0⟩ [0, 1, 2]
      = [(⟨0, 0, 0, none⟩ : Node), ⟨1 / 2, 0, 1 / 2, some 0⟩,
         ⟨1, 0, 1, some 0⟩, ⟨3 / 2, 0, 3 / 2, some 0⟩] := by
    unfold rewire
    rw [List.foldl_cons,
      rewireOne_noop_le cfgRun ⟨3 / 2, 0, 3 / 2, some 0⟩
        (([(⟨0, 0, 0, none⟩ : Node), ⟨1 / 2, 0, 1 / 2, some 0⟩,
          ⟨1, 0, 1, some 0⟩, ⟨3 / 2, 0, 3 / 2, some 0⟩] : List Node).length - 1)
        [⟨0, 0, 0, none⟩, ⟨1 / 2, 0, 1 / 2, some 0⟩, ⟨1, 0, 1, some 0⟩,
         ⟨3 / 2, 0, 3 / 2, some 0⟩] 0
        (by simp only [List.getD_cons_zero]; norm_num),
      List.foldl_cons,
      rewireOne_noop_le cfgRun ⟨3 / 2, 0, 3 / 2, some 0⟩
        (([(⟨0, 0, 0, none⟩ : Node), ⟨1 / 2, 0, 1 / 2, some 0⟩,
          ⟨1, 0, 1, some 0⟩, ⟨3 / 2, 0, 3 / 2, some 0⟩] : List Node).length - 1)
        [⟨0, 0, 0, none⟩, ⟨1 / 2, 0, 1 / 2, some 0⟩, ⟨1, 0, 1, some 0⟩,
         ⟨3 / 2, 0, 3 / 2, some 0⟩] 1
        (by simp only [List.getD_cons_succ, List.getD_cons_zero]; norm_num),
      List.foldl_cons,
      rewireOne_noop_le cfgRun ⟨3 / 2, 0, 3 / 2, some 0⟩
        (([(⟨0, 0, 0, none⟩ : Node), ⟨1 / 2, 0, 1 / 2, some 0⟩,
          ⟨1, 0, 1, some 0⟩, ⟨3 / 2, 0, 3 / 2, some 0⟩] : List Node).length - 1)
        [⟨0, 0, 0, none⟩, ⟨1 / 2, 0, 1 / 2, some 0⟩, ⟨1, 0, 1, some 0⟩,
         ⟨3 / 2, 0, 3 / 2, some 0⟩] 2
        (by simp only [List.getD_cons_succ, List.getD_cons_zero]; norm_num),
      List.foldl_nil]
  have hng : is_near_goal cfgRun ⟨3 / 2, 0, 3 / 2, some 0⟩ = true := by
    refine is_near_goal_run_near _ _ _ ?_
    rw [show ((3 / 2 : ℝ) - 8 / 5) ^ 2 + ((0 : ℝ) - 0) ^ 2 = (1 / 10) ^ 2
      by norm_num, Real.sqrt_sq (by norm_num)]
    norm_num
  have hcourse : get_final_course cfgRun
      [(⟨0, 0, 0, none⟩ : Node), ⟨1 / 2, 0, 1 / 2, some 0⟩,
       ⟨1, 0, 1, some 0⟩, ⟨3 / 2, 0, 3 / 2, some 0⟩] 3
      = [(8 / 5, 0), (3 / 2, 0), (0, 0)] := rfl
  have hplen : get_path_len [((8 / 5 : ℝ), (0 : ℝ)), (3 / 2, 0), (0, 0)]
      = 8 / 5 := by
    simp only [get_path_len]
    rw [show dist2 ((3 / 2 : ℝ), (0 : ℝ)) (8 / 5, 0) = 1 / 10 by
        unfold dist2; exact sqrt_eval (by norm_num) (by norm_num),
      show dist2 ((0 : ℝ), (0 : ℝ)) (3 / 2, 0) = 3 / 2 by
        unfold dist2; exact sqrt_eval (by norm_num) (by norm_num)]
    norm_num
  simp only [growOnce,
    show SR2.nodes = [(⟨0, 0, 0, none⟩ : Node), ⟨1 / 2, 0, 1 / 2, some 0⟩,
      ⟨1, 0, 1, some 0⟩] from rfl,
    show SR2.cBest = (⊤ : WithTop ℝ) from rfl,
    show SR2.pathLen = (⊤ : WithTop ℝ) from rfl,
    show SR2.path = (none : Option (List Point)) from rfl,
    hrnd, hnear, List.getD_cons_succ, List.getD_cons_zero, sub_self, hatan,
    get_new_node, cfgRun_expand, Real.cos_zero, Real.sin_zero, mul_one,
    mul_zero, add_zero, cfgRun_obstacles, collision_check_nil,
    cce_cfgRun, and_self, if_true,
    show (1 : ℝ) + 1 / 2 = 3 / 2 by norm_num,
    hfnn, hcp, List.cons_append, List.nil_append, hrw, hng,
    show ([(⟨0, 0, 0, none⟩ : Node), ⟨1 / 2, 0, 1 / 2, some 0⟩,
      ⟨1, 0, 1, some 0⟩, ⟨3 / 2, 0, 3 / 2, some 0⟩] : List Node).length - 1
      = 3 from rfl,
    hcourse, hplen, WithTop.coe_lt_top, SR3, nodesR3, pathR3]

theorem sample_unit_ball_01 : sample_unit_ball 0 1 = ((1 : ℝ), (0 : ℝ)) := by
  unfold sample_unit_ball
  rw [if_neg (by norm_num : ¬(1 : ℝ) < 0)]
  norm_num

theorem cMinOf_cfgRun : cMinOf cfgRun = 8 / 5 := by
  show Real.sqrt (((0 : ℝ) - 8 / 5) ^ 2 + ((0 : ℝ) - 0) ^ 2) = 8 / 5
  exact sqrt_eval (by norm_num) (by norm_num)

/-- The informed sample of the fourth iteration: with the best cost 8/5
equal to `cMin`, the sampling ellipse has degenerated to the start–goal
segment, and the unit-ball draw `(1, 0)` is mapped to the goal `(8/5, 0)`. -/
theorem informed_sample_R4 :
    informed_sample cfgRun CmatI (((8 / 5 : ℝ)) : WithTop ℝ)
      (cMinOf cfgRun) (xCenterOf cfgRun) drawRun4
      = ((8 / 5 : ℝ), (0 : ℝ)) := by
  show ellipsePoint CmatI (8 / 5 / 2)
      (Real.sqrt (informedAxisArg (8 / 5) (cMinOf cfgRun)) / 2)
      (sample_unit_ball 0 1) (xCenterOf cfgRun) = ((8 / 5 : ℝ), (0 : ℝ))
  rw [sample_unit_ball_01, cMinOf_cfgRun]
  unfold ellipsePoint informedAxisArg xCenterOf
  rw [show ((8 / 5 : ℝ) ^ 2 - (8 / 5 : ℝ) ^ 2) = 0 by ring, Real.sqrt_zero]
  rw [show CmatI 0 0 = 1 from rfl, show CmatI 0 1 = 0 from rfl,
    show CmatI 1 0 = 0 from rfl, show CmatI 1 1 = 1 from rfl,
    show cfgRun.start.1 = (0 : ℝ) from rfl,
    show cfgRun.start.2 = (0 : ℝ) from rfl,
    show cfgRun.goal.1 = (8 / 5 : ℝ) from rfl,
    show cfgRun.goal.2 = (0 : ℝ) from rfl]
  norm_num

/-- Fourth iteration of the run: the informed sample lands on the goal, the
tree steers from `(3/2, 0)` to `(2, 0)`, which is again within the step
length of the goal; the extracted candidate path has length 12/5, *longer*
than the recorded best 8/5, yet the planner records it because the guard
compares against the never-updated `pathLen = inf`. -/
theorem growOnce_R4 :
    growOnce cfgRun CmatI (cMinOf cfgRun) (xCenterOf cfgRun) SR3 drawRun4
      = SR4 := by
  have hnear : get_nearest_list_index
      [(⟨0, 0, 0, none⟩ : Node), ⟨1 / 2, 0, 1 / 2, some 0⟩,
       ⟨1, 0, 1, some 0⟩, ⟨3 / 2, 0, 3 / 2, some 0⟩]
      ((8 / 5 : ℝ), (0 : ℝ)) = 3 := by
    unfold get_nearest_list_index
    have hmap : ([(⟨0, 0, 0, none⟩ : Node), ⟨1 / 2, 0, 1 / 2, some 0⟩,
        ⟨1, 0, 1, some 0⟩, ⟨3 / 2, 0, 3 / 2, some 0⟩]).map
        (fun node => (node.x - ((8 / 5 : ℝ), (0 : ℝ)).1) ^ 2
          + (node.y - ((8 / 5 : ℝ), (0 : ℝ)).2) ^ 2)
        = [64 / 25, 121 / 100, 9 / 25, 1 / 100] := by
      simp only [List.map]
      norm_num
    rw [hmap]
    simp only [pyMin_quad]
    rw [min_eq_right (by norm_num : (121 / 100 : ℝ) ≤ 64 / 25),
      min_eq_right (by norm_num : (9 / 25 : ℝ) ≤ 121 / 100),
      min_eq_right (by norm_num : (1 / 100 : ℝ) ≤ 9 / 25),
      pyIndex_cons_ne (by norm_num : (64 / 25 : ℝ) ≠ 1 / 100),
      pyIndex_cons_ne (by norm_num : (121 / 100 : ℝ) ≠ 1 / 100),
      pyIndex_cons_ne (by norm_num : (9 / 25 : ℝ) ≠ 1 / 100), pyIndex_head]
  have hatan : atan2 (0 : ℝ) (8 / 5 - 3 / 2 : ℝ) = 0 :=
    atan2_zero_pos (by norm_num)
  have hfnn : find_near_nodes
      [(⟨0, 0, 0, none⟩ : Node), ⟨1 / 2, 0, 1 / 2, some 0⟩,
       ⟨1, 0, 1, some 0⟩, ⟨3 / 2, 0, 3 / 2, some 0⟩]
      ⟨2, 0, 2, some 3⟩ = [0, 1, 2, 3] := by
    have hmap : ([(⟨0, 0, 0, none⟩ : Node), ⟨1 / 2, 0, 1 / 2, some 0⟩,
        ⟨1, 0, 1, some 0⟩, ⟨3 / 2, 0, 3 / 2, some 0⟩]).map
        (fun node => (node.x - (⟨2, 0, 2, some 3⟩ : Node).x) ^ 2
          + (node.y - (⟨2, 0, 2, some 3⟩ : Node).y) ^ 2)
        = [4, 9 / 4, 1, 1 / 4] := by
      simp only [List.map]
      norm_num
    simp only [find_near_nodes]
    rw [hmap, show ([(⟨0, 0, 0, none⟩ : Node), ⟨1 / 2, 0, 1 / 2, some 0⟩,
      ⟨1, 0, 1, some 0⟩, ⟨3 / 2, 0, 3 / 2, some 0⟩]).length = 4 from rfl]
    push_cast
    have hlognn : (0 : ℝ) ≤ Real.log 4 / 4 :=
      div_nonneg (Real.log_nonneg (by norm_num)) (by norm_num)
    have hr : ((50 : ℝ) * Real.sqrt (Real.log 4 / 4)) ^ 2
        = 2500 * (Real.log 4 / 4) := by
      rw [mul_pow, Real.sq_sqrt hlognn]
      ring
    simp only [hr]
    have hgt := log_four_gt_one
    have d0 : decide ((4 : ℝ) ≤ 2500 * (Real.log 4 / 4)) = true :=
      decide_eq_true (by nlinarith)
    have d1 : decide ((9 / 4 : ℝ) ≤ 2500 * (Real.log 4 / 4)) = true :=
      decide_eq_true (by nlinarith)
    have d2 : decide ((1 : ℝ) ≤ 2500 * (Real.log 4 / 4)) = true :=
      decide_eq_true (by nlinarith)
    have d3 : decide ((1 / 4 : ℝ) ≤ 2500 * (Real.log 4 / 4)) = true :=
      decide_eq_true (by nlinarith)
    simp only [List.filter, d0, d1, d2, d3, List.map]
    rw [pyIndex_head,
      pyIndex_cons_ne (by norm_num : (4 : ℝ) ≠ 9 / 4), pyIndex_head,
      pyIndex_cons_ne (by norm_num : (4 : ℝ) ≠ 1),
      pyIndex_cons_ne (by norm_num : (9 / 4 : ℝ) ≠ 1), pyIndex_head,
      pyIndex_cons_ne (by norm_num : (4 : ℝ) ≠ 1 / 4),
      pyIndex_cons_ne (by norm_num : (9 / 4 : ℝ) ≠ 1 / 4),
      pyIndex_cons_ne (by norm_num : (1 : ℝ) ≠ 1 / 4), pyIndex_head]
  have he0 : chooseParentEntry cfgRun
      [(⟨0, 0, 0, none⟩ : Node), ⟨1 / 2, 0, 1 / 2, some 0⟩,
       ⟨1, 0, 1, some 0⟩, ⟨3 / 2, 0, 3 / 2, some 0⟩] ⟨2, 0, 2, some 3⟩ 0
      = ((2 : ℝ) : WithTop ℝ) := by
    simp only [chooseParentEntry, List.getD_cons_zero]
    rw [if_pos (cce_cfgRun _ _ _)]
    rw [show Real.sqrt (((⟨2, 0, 2, some 3⟩ : Node).x
        - (⟨0, 0, 0, none⟩ : Node).x) ^ 2
        + ((⟨2, 0, 2, some 3⟩ : Node).y - (⟨0, 0, 0, none⟩ : Node).y) ^ 2)
      = 2 from sqrt_eval (by norm_num) (by norm_num)]
    rw [WithTop.coe_eq_coe]
    norm_num
  have he1 : chooseParentEntry cfgRun
      [(⟨0, 0, 0, none⟩ : Node), ⟨1 / 2, 0, 1 / 2, some 0⟩,
       ⟨1, 0, 1, some 0⟩, ⟨3 / 2, 0, 3 / 2, some 0⟩] ⟨2, 0, 2, some 3⟩ 1
      = ((2 : ℝ) : WithTop ℝ) := by
    simp only [chooseParentEntry, List.getD_cons_succ, List.getD_cons_zero]
    rw [if_pos (cce_cfgRun _ _ _)]
    rw [show Real.sqrt (((⟨2, 0, 2, some 3⟩ : Node).x
        - (⟨1 / 2, 0, 1 / 2, some 0⟩ : Node).x) ^ 2
        + ((⟨2, 0, 2, some 3⟩ : Node).y
          - (⟨1 / 2, 0, 1 / 2, some 0⟩ : Node).y) ^ 2)
      = 3 / 2 from sqrt_eval (by norm_num) (by norm_num)]
    rw [WithTop.coe_eq_coe]
    norm_num
  have he2 : chooseParentEntry cfgRun
      [(⟨0, 0, 0, none⟩ : Node), ⟨1 / 2, 0, 1 / 2, some 0⟩,
       ⟨1, 0, 1, some 0⟩, ⟨3 / 2, 0, 3 / 2, some 0⟩] ⟨2, 0, 2, some 3⟩ 2
      = ((2 : ℝ) : WithTop ℝ) := by
    simp only [chooseParentEntry, List.getD_cons_succ, List.getD_cons_zero]
    rw [if_pos (cce_cfgRun _ _ _)]
    rw [show Real.sqrt (((⟨2, 0, 2, some 3⟩ : Node).x
        - (⟨1, 0, 1, some 0⟩ : Node).x) ^ 2
        + ((⟨2, 0, 2, some 3⟩ : Node).y - (⟨1, 0, 1, some 0⟩ : Node).y) ^ 2)
      = 1 from sqrt_eval (by norm_num) (by norm_num)]
    rw [WithTop.coe_eq_coe]
    norm_num
  have he3 : chooseParentEntry cfgRun
      [(⟨0, 0, 0, none⟩ : Node), ⟨1 / 2, 0, 1 / 2, some 0⟩,
       ⟨1, 0, 1, some 0⟩, ⟨3 / 2, 0, 3 / 2, some 0⟩] ⟨2, 0, 2, some 3⟩ 3
      = ((2 : ℝ) : WithTop ℝ) := by
    simp only [chooseParentEntry, List.getD_cons_succ, List.getD_cons_zero]
    rw [if_pos (cce_cfgRun _ _ _)]
    rw [show Real.sqrt (((⟨2, 0, 2, some 3⟩ : Node).x
        - (⟨3 / 2, 0, 3 / 2, some 0⟩ : Node).x) ^ 2
        + ((⟨2, 0, 2, some 3⟩ : Node).y
          - (⟨3 / 2, 0, 3 / 2, some 0⟩ : Node).y) ^ 2)
      = 1 / 2 from sqrt_eval (by norm_num) (by norm_num)]
    rw [WithTop.coe_eq_coe]
    norm_num
  have hcp : choose_parent cfgRun
      [(⟨0, 0, 0, none⟩ : Node), ⟨1 / 2, 0, 1 / 2, some 0⟩,
       ⟨1, 0, 1, some 0⟩, ⟨3 / 2, 0, 3 / 2, some 0⟩]
      ⟨2, 0, 2, some 3⟩ [0, 1, 2, 3] = ⟨2, 0, 2, some 0⟩ := by
    unfold choose_parent
    rw [if_neg (by simp : ¬([0, 1, 2, 3] : List ℕ) = [])]
    simp only [List.map, he0, he1, he2, he3, pyMin_quad, min_self]
    rw [dif_neg (by simp : ¬((2 : ℝ) : WithTop ℝ) = ⊤)]
    simp only [pyIndex_head, List.getD_cons_zero, WithTop.untop_coe]
  have hrw : rewire cfgRun
      [(⟨0, 0, 0, none⟩ : Node), ⟨1 / 2, 0, 1 / 2, some 0⟩,
       ⟨1, 0, 1, some 0⟩, ⟨3 / 2, 0, 3 / 2, some 0⟩, ⟨2, 0, 2, some 0⟩]
      ⟨2, 0, 2, some 0⟩ [0, 1, 2, 3]
      = [(⟨0, 0, 0, none⟩ : Node), ⟨1 / 2, 0, 1 / 2, some 0⟩,
         ⟨1, 0, 1, some 0⟩, ⟨3 / 2, 0, 3 / 2, some 0⟩, ⟨2, 0, 2, some 0⟩] := by
    unfold rewire
    rw [List.foldl_cons,
      rewireOne_noop_le cfgRun ⟨2, 0, 2, some 0⟩
        (([(⟨0, 0, 0, none⟩ : Node), ⟨1 / 2, 0, 1 / 2, some 0⟩,
          ⟨1, 0, 1, some 0⟩, ⟨3 / 2, 0, 3 / 2, some 0⟩,
          ⟨2, 0, 2, some 0⟩] : List Node).length - 1)
        [⟨0, 0, 0, none⟩, ⟨1 / 2, 0, 1 / 2, some 0⟩, ⟨1, 0, 1, some 0⟩,
         ⟨3 / 2, 0, 3 / 2, some 0⟩, ⟨2, 0, 2, some 0⟩] 0
        (by simp only [List.getD_cons_zero]; norm_num),
      List.foldl_cons,
      rewireOne_noop_le cfgRun ⟨2, 0, 2, some 0⟩
        (([(⟨0, 0, 0, none⟩ : Node), ⟨1 / 2, 0, 1 / 2, some 0⟩,
          ⟨1, 0, 1, some 0⟩, ⟨3 / 2, 0, 3 / 2, some 0⟩,
          ⟨2, 0, 2, some 0⟩] : List Node).length - 1)
        [⟨0, 0, 0, none⟩, ⟨1 / 2, 0, 1 / 2, some 0⟩, ⟨1, 0, 1, some 0⟩,
         ⟨3 / 2, 0, 3 / 2, some 0⟩, ⟨2, 0, 2, some 0⟩] 1
        (by simp only [List.getD_cons_succ, List.getD_cons_zero]; norm_num),
      List.foldl_cons,
      rewireOne_noop_le cfgRun ⟨2, 0, 2, some 0⟩
        (([(⟨0, 0, 0, none⟩ : Node), ⟨1 / 2, 0, 1 / 2, some 0⟩,
          ⟨1, 0, 1, some 0⟩, ⟨3 / 2, 0, 3 / 2, some 0⟩,
          ⟨2, 0, 2, some 0⟩] : List Node).length - 1)
        [⟨0, 0, 0, none⟩, ⟨1 / 2, 0, 1 / 2, some 0⟩, ⟨1, 0, 1, some 0⟩,
         ⟨3 / 2, 0, 3 / 2, some 0⟩, ⟨2, 0, 2, some 0⟩] 2
        (by simp only [List.getD_cons_succ, List.getD_cons_zero]; norm_num),
      List.foldl_cons,
      rewireOne_noop_le cfgRun ⟨2, 0, 2, some 0⟩
        (([(⟨0, 0, 0, none⟩ : Node), ⟨1 / 2, 0, 1 / 2, some 0⟩,
          ⟨1, 0, 1, some 0⟩, ⟨3 / 2, 0, 3 / 2, some 0⟩,
          ⟨2, 0, 2, some 0⟩] : List Node).length - 1)
        [⟨0, 0, 0, none⟩, ⟨1 / 2, 0, 1 / 2, some 0⟩, ⟨1, 0, 1, some 0⟩,
         ⟨3 / 2, 0, 3 / 2, some 0⟩, ⟨2, 0, 2, some 0⟩] 3
        (by simp only [List.getD_cons_succ, List.getD_cons_zero]; norm_num),
      List.foldl_nil]
  have hng : is_near_goal cfgRun ⟨2, 0, 2, some 0⟩ = true := by
    refine is_near_goal_run_near _ _ _ ?_
    rw [show ((2 : ℝ) - 8 / 5) ^ 2 + ((0 : ℝ) - 0) ^ 2 = (2 / 5) ^ 2
      by norm_num, Real.sqrt_sq (by norm_num)]
    norm_num
  have hcourse : get_final_course cfgRun
      [(⟨0, 0, 0, none⟩ : Node), ⟨1 / 2, 0, 1 / 2, some 0⟩,
       ⟨1, 0, 1, some 0⟩, ⟨3 / 2, 0, 3 / 2, some 0⟩, ⟨2, 0, 2, some 0⟩] 4
      = [(8 / 5, 0), (2, 0), (0, 0)] := rfl
  have hplen : get_path_len [((8 / 5 : ℝ), (0 : ℝ)), (2, 0), (0, 0)]
      = 12 / 5 := by
    simp only [get_path_len]
    rw [show dist2 ((2 : ℝ), (0 : ℝ)) (8 / 5, 0) = 2 / 5 by
        unfold dist2; exact sqrt_eval (by norm_num) (by norm_num),
      show dist2 ((0 : ℝ), (0 : ℝ)) (2, 0) = 2 by
        unfold dist2; exact sqrt_eval (by norm_num) (by norm_num)]
    norm_num
  simp only [growOnce,
    show SR3.nodes = [(⟨0, 0, 0, none⟩ : Node), ⟨1 / 2, 0, 1 / 2, some 0⟩,
      ⟨1, 0, 1, some 0⟩, ⟨3 / 2, 0, 3 / 2, some 0⟩] from rfl,
    show SR3.cBest = (((8 / 5 : ℝ)) : WithTop ℝ) from rfl,
    show SR3.pathLen = (⊤ : WithTop ℝ) from rfl,
    show SR3.path = some pathR3 from rfl,
    informed_sample_R4, hnear, List.getD_cons_succ, List.getD_cons_zero,
    sub_self, hatan, get_new_node, cfgRun_expand, Real.cos_zero,
    Real.sin_zero, mul_one, mul_zero, add_zero, cfgRun_obstacles,
    collision_check_nil, cce_cfgRun, and_self, if_true,
    show (3 / 2 : ℝ) + 1 / 2 = 2 by norm_num,
    hfnn, hcp, List.cons_append, List.nil_append, hrw, hng,
    show ([(⟨0, 0, 0, none⟩ : Node), ⟨1 / 2, 0, 1 / 2, some 0⟩,
      ⟨1, 0, 1, some 0⟩, ⟨3 / 2, 0, 3 / 2, some 0⟩,
      ⟨2, 0, 2, some 0⟩] : List Node).length - 1 = 4 from rfl,
    hcourse, hplen, WithTop.coe_lt_top, SR4, nodesR4, pathR4]

/-- Folding the first three (uninformed) iterations. -/
theorem searchState_run3 :
    searchState cfgRun CmatI [drawRun, drawRun, drawRun] = SR3 := by
  unfold searchState
  rw [List.foldl_cons, growOnce_R1, List.foldl_cons, growOnce_R2,
    List.foldl_cons, growOnce_R3, List.foldl_nil]

/-- Folding all four iterations: the run whose recorded best cost rises
from 8/5 to 12/5. -/
theorem searchState_run4 :
    searchState cfgRun CmatI [drawRun, drawRun, drawRun, drawRun4] = SR4 := by
  unfold searchState
  rw [List.foldl_cons, growOnce_R1, List.foldl_cons, growOnce_R2,
    List.foldl_cons, growOnce_R3, List.foldl_cons, growOnce_R4,
    List.foldl_nil]

/-- The three-iteration run, through the full search entry point. -/
theorem search_run3_eval :
    informed_rrt_star_search cfgRun CmatI [drawRun, drawRun, drawRun]
      = Except.ok (some pathR3) := by
  have h0 : ¬ cMinOf cfgRun = 0 := by
    rw [cMinOf_cfgRun]
    norm_num
  have hsetup : searchSetup cfgRun
      = Except.ok (cMinOf cfgRun, xCenterOf cfgRun,
        ((cfgRun.goal.1 - cfgRun.start.1) / cMinOf cfgRun,
         (cfgRun.goal.2 - cfgRun.start.2) / cMinOf cfgRun)) := by
    simp [searchSetup, h0]
  unfold informed_rrt_star_search
  rw [hsetup, searchState_run3]
  rfl

/-- C1: the guard of the best-path update compares the candidate length
against `pathLen`, which the loop never updates from its initial value
`inf` (`cBest`, not `pathLen`, receives the candidate length on line 94);
consequently *every* goal-reaching candidate overwrites the stored best
path and best cost, and the sequence of recorded best costs can increase.
In the concrete run below, iteration 3 records the path of cost 8/5 and
iteration 4 of the same run then overwrites it with a path of the strictly
larger cost 12/5, while `pathLen` still holds `inf`. -/
theorem cBest_can_increase :
    (searchState cfgRun CmatI [drawRun, drawRun, drawRun]).cBest
        = ((8 / 5 : ℝ) : WithTop ℝ)
    ∧ (searchState cfgRun CmatI [drawRun, drawRun, drawRun, drawRun4]).cBest
        = ((12 / 5 : ℝ) : WithTop ℝ)
    ∧ ((8 / 5 : ℝ) : WithTop ℝ) < ((12 / 5 : ℝ) : WithTop ℝ)
    ∧ (searchState cfgRun CmatI [drawRun, drawRun, drawRun, drawRun4]).pathLen
        = ⊤ := by
  refine ⟨?_, ?_, ?_, searchState_pathLen cfgRun CmatI _⟩
  · rw [searchState_run3]
    rfl
  · rw [searchState_run4]
    rfl
  · exact WithTop.coe_lt_coe.2 (by norm_num)

/-- C6 counterexample: a completed run whose returned path has two
consecutive points at distance 3/2, three times the step length 1/2.  The
long edge comes from `choose_parent`, which may connect the new node
directly to any near node, and from the path walk recording only tree
vertices. -/
theorem path_step_gap_counterexample :
    informed_rrt_star_search cfgRun CmatI [drawRun, drawRun, drawRun]
        = Except.ok (some pathR3)
    ∧ pathR3[1]? = some ((3 / 2 : ℝ), (0 : ℝ))
    ∧ pathR3[2]? = some ((0 : ℝ), (0 : ℝ))
    ∧ dist2 ((3 / 2 : ℝ), (0 : ℝ)) ((0 : ℝ), (0 : ℝ)) = 3 / 2
    ∧ cfgRun.expandDis < 3 / 2 := by
  refine ⟨search_run3_eval, rfl, rfl, ?_, ?_⟩
  · unfold dist2
    exact sqrt_eval (by norm_num) (by norm_num)
  · rw [cfgRun_expand]
    norm_num

/-- C6 (amended): whenever the search returns a path, that path is
non-empty, its first point is the goal and its last point is the start.
The original claim's further conjunct — every consecutive pair of path
points at distance at most the step length — is refuted by
the counterexample above. -/
theorem search_path_endpoints (cfg : Config) (Cmat : Fin 3 → Fin 3 → ℝ)
    (draws : List Draw) (p : List Point)
    (h : informed_rrt_star_search cfg Cmat draws = Except.ok (some p)) :
    p.head? = some cfg.goal ∧ p.getLast? = some cfg.start ∧ p ≠ [] := by
  have hpath : (searchState cfg Cmat draws).path = some p := by
    unfold informed_rrt_star_search at h
    cases hs : searchSetup cfg with
    | error e =>
      rw [hs] at h
      exact absurd h (by simp)
    | ok v =>
      rw [hs] at h
      exact Except.ok.inj h
  have hform : ∀ (ds : List Draw) (s : SState),
      (s.path = none ∨
        ∃ nodes li, s.path = some (get_final_course cfg nodes li)) →
      ((ds.foldl (growOnce cfg Cmat (cMinOf cfg) (xCenterOf cfg)) s).path
          = none ∨
        ∃ nodes li,
          (ds.foldl (growOnce cfg Cmat (cMinOf cfg) (xCenterOf cfg)) s).path
            = some (get_final_course cfg nodes li)) := by
    intro ds
    induction ds with
    | nil => exact fun s h => h
    | cons d ds ih =>
      intro s hs
      rw [List.foldl_cons]
      apply ih
      rcases growOnce_path cfg Cmat (cMinOf cfg) (xCenterOf cfg) s d
        with h1 | ⟨nodes, li, h1⟩
      · rw [h1]
        exact hs
      · exact Or.inr ⟨nodes, li, h1⟩
  have hres := hform draws (initState cfg) (Or.inl rfl)
  unfold searchState at hpath
  rcases hres with h1 | ⟨nodes, li, h1⟩
  · rw [hpath] at h1
    exact absurd h1 (by simp)
  · rw [hpath] at h1
    have hp : p = get_final_course cfg nodes li := Option.some.inj h1
    rw [hp]
    refine ⟨get_final_course_head cfg nodes li,
      get_final_course_getLast cfg nodes li, ?_⟩
    unfold get_final_course
    exact List.cons_ne_nil _ _

/-- C6 witness: the endpoints property evaluated on the concrete
three-iteration run. -/
theorem search_path_endpoints_witness :
    pathR3.head? = some cfgRun.goal ∧ pathR3.getLast? = some cfgRun.start
      ∧ pathR3 ≠ [] :=
  search_path_endpoints cfgRun CmatI [drawRun, drawRun, drawRun] pathR3
    search_run3_eval

/-- C10 witness: in the concrete run the recorded best cost 8/5 dominates
`cMin`, and the square-root argument of the minor semi-axis is
nonnegative. -/
theorem informed_sample_axis_nonneg_witness :
    cfgRun.start ≠ cfgRun.goal ∧
      (cMinOf cfgRun ≤ 8 / 5 ∧ 0 ≤ informedAxisArg (8 / 5) (cMinOf cfgRun)) := by
  have hsg : cfgRun.start ≠ cfgRun.goal := by
    intro h
    have h1 : (0 : ℝ) = 8 / 5 := congrArg Prod.fst h
    norm_num at h1
  exact ⟨hsg, informed_sample_axis_nonneg cfgRun CmatI
    [drawRun, drawRun, drawRun] hsg (8 / 5)
    (by rw [searchState_run3]; rfl)⟩

end

end InformedRRTStar
